import Mathlib

set_option maxRecDepth 4000

/-! Shallow embedding of spillDEM (src/main.cpp): the Wang & Liu (2006)
priority-flood depression-filling traversal with optional minimum-slope
preservation, together with proofs of the specified properties.

Modelling conventions: IEEE-754 single-precision values are modelled as exact
rationals.  The two values the program precomputes with transcendental
functions enter the model as context fields: `minslope` stands for the value
`tan(minslope_degrees * pi / 180)` computed on line 193 of main.cpp, and
`diaglength` stands for `sqrt(pixelSizeX^2 + pixelSizeY^2)` computed on
line 185.  Machine `int` coordinates are modelled as `Int`; the raster
buffers (row-major, `y * xSize + x`) are modelled as total functions from
the linear index.  The ghost fields `enqCount`, `resCount`, `resElev` and
`disc` record the event history (enqueues, resolutions, elevation at
resolution, discovery edges); they are written alongside the real state and
never read by the algorithm, so they do not alter its behaviour. -/

namespace SpillDEM

/-- Frontier entry, mirroring `struct node` of main.cpp: spill elevation and
cell coordinates; the priority queue pops the minimum spill first. -/
structure node where
  spill : ℚ
  x : ℤ
  y : ℤ
deriving DecidableEq

/-- Ghost record of a discovery edge: the resolved cell `c` discovered the
unvisited neighbour `n` via direction `d`. -/
structure DiscEdge where
  c : ℕ
  d : Fin 8
  n : ℕ
deriving DecidableEq

/-- Context of one run: raster dimensions, no-data value, pixel sizes, the
precomputed diagonal length and tangent of the minimum slope, and the
`preserve` flag (lines 147-201 of main.cpp). -/
structure Ctx where
  xSize : ℕ
  ySize : ℕ
  nodata : ℚ
  pixelSizeX : ℚ
  pixelSizeY : ℚ
  diaglength : ℚ
  minslope : ℚ
  preserve : Bool

/-- The 8 neighbour offsets `ngh` (line 181), in the source's fixed angular
order starting east, clockwise through south-east (y decreasing is up in
raster coordinates; the exact geometry is irrelevant to the algorithm). -/
def ngh : Fin 8 → ℤ × ℤ :=
  ![(1, 0), (1, -1), (0, -1), (-1, -1), (-1, 0), (-1, 1), (0, 1), (1, 1)]

/-- The LDD direction-code table `ldd` (line 209); index 8 is the flat
sentinel 0. -/
def ldd : Fin 9 → ℕ := ![6, 3, 2, 1, 4, 7, 8, 9, 0]

/-- Direction `(d+4) % 8`, the offset opposite to `d`. -/
def oppDir (d : Fin 8) : Fin 8 := ⟨(d.val + 4) % 8, Nat.mod_lt _ (by norm_num)⟩

/-- Per-direction physical length table `length` (line 186). -/
def length (P : Ctx) : Fin 8 → ℚ :=
  ![P.pixelSizeX, P.diaglength, P.pixelSizeY, P.diaglength,
    P.pixelSizeX, P.diaglength, P.pixelSizeY, P.diaglength]

/-- Per-direction minimum elevation increment `mindiff[d] = minslope * length[d]`
(line 195); `P.minslope` models the already-converted tangent value. -/
def mindiff (P : Ctx) (d : Fin 8) : ℚ := P.minslope * length P d

/-- Lambda `getNeighbourX` (line 203). -/
def getNeighbourX (x : ℤ) (d : Fin 8) : ℤ := x + (ngh d).1

/-- Lambda `getNeighbourY` (line 204). -/
def getNeighbourY (y : ℤ) (d : Fin 8) : ℤ := y + (ngh d).2

/-- Lambda `getIndex` (line 205): row-major linear index. -/
def getIndex (P : Ctx) (x y : ℤ) : ℤ := y * (P.xSize : ℤ) + x

/-- Lambda `isInBounds` (line 206). -/
def isInBounds (P : Ctx) (x y : ℤ) : Bool :=
  decide (0 ≤ x) && decide (x < (P.xSize : ℤ)) &&
    decide (0 ≤ y) && decide (y < (P.ySize : ℤ))

/-- Linear index as a natural number (buffer subscript); meaningful whenever
`isInBounds` holds. -/
def cellIdx (P : Ctx) (x y : ℤ) : ℕ := (getIndex P x y).toNat

/-- Linear index of the neighbour of `(x, y)` in direction `d`. -/
def nbrIdx (P : Ctx) (x y : ℤ) (d : Fin 8) : ℕ :=
  cellIdx P (getNeighbourX x d) (getNeighbourY y d)

/-- C++ float-to-int conversion: truncation toward zero.  Used to model the
implicit conversion at the call `getFlowDir(current.x, current.y, z)`
(line 338), where `z` is a float but the lambda parameter is declared `int`. -/
def cIntOfRat (q : ℚ) : ℤ := Int.tdiv q.num q.den

/-- Lambda `getFlowDir` (lines 215-236), exactly as written in the source:
the third parameter is declared `int z`, so all comparisons and gradients
use the integer value promoted back to float.  Scans the 8 neighbours in
order; a neighbour counts if it is in bounds, already processed, and its
(working) elevation is at most `z`; keeps the first direction realizing the
strictly largest gradient `(z - elev[n]) / length[d]`; returns 8 (the flat
sentinel index) if none qualifies. -/
def getFlowDir (P : Ctx) (elev : ℕ → ℚ) (processed : ℕ → Bool)
    (x y : ℤ) (z : ℤ) : Fin 9 :=
  ((List.finRange 8).foldl (fun (acc : ℚ × Fin 9) d =>
    let nx := getNeighbourX x d
    let ny := getNeighbourY y d
    let n := cellIdx P nx ny
    if isInBounds P nx ny && processed n && decide (elev n ≤ (z : ℚ)) then
      let grad := ((z : ℚ) - elev n) / length P d
      if acc.1 < grad then (grad, d.castSucc) else acc
    else acc) ((-1 : ℚ), (8 : Fin 9))).2

/-- Follows the spec's words for claim C4 (refinement comparison): the same
steepest-descent scan but taking the cell's spill elevation `z` as the
rational (float) value itself, not truncated to an integer. -/
def getFlowDirClaim (P : Ctx) (elev : ℕ → ℚ) (processed : ℕ → Bool)
    (x y : ℤ) (z : ℚ) : Fin 9 :=
  ((List.finRange 8).foldl (fun (acc : ℚ × Fin 9) d =>
    let nx := getNeighbourX x d
    let ny := getNeighbourY y d
    let n := cellIdx P nx ny
    if isInBounds P nx ny && processed n && decide (elev n ≤ z) then
      let grad := (z - elev n) / length P d
      if acc.1 < grad then (grad, d.castSucc) else acc
    else acc) ((-1 : ℚ), (8 : Fin 9))).2

/-- Mutable state of the run: the working elevation buffer `elev`, the
`queued` / `processed` flags, the `flowdir` buffer, the priority queue
(modelled as a list; extraction takes a minimal-spill element), and the
ghost history fields (see the file header). -/
structure St where
  elev : ℕ → ℚ
  queued : ℕ → Bool
  processed : ℕ → Bool
  flowdir : ℕ → ℕ
  queue : List node
  enqCount : ℕ → ℕ
  resCount : ℕ → ℕ
  resElev : ℕ → Option ℚ
  disc : List DiscEdge

/-- State before seeding: buffers as allocated on lines 210-213 (queued and
processed all false, flowdir all 0, queue empty), elevation buffer holding
the raw input raster. -/
def seedInit (elev0 : ℕ → ℚ) : St where
  elev := elev0
  queued := fun _ => false
  processed := fun _ => false
  flowdir := fun _ => 0
  queue := []
  enqCount := fun _ => 0
  resCount := fun _ => 0
  resElev := fun _ => none
  disc := []

/-- Edge-seed test of the seeding scan (lines 255-266): some neighbour is out
of bounds or has no-data raw elevation.  `e` is the elevation buffer (which
seeding never modifies). -/
def edgeTest (P : Ctx) (e : ℕ → ℚ) (x y : ℤ) : Bool :=
  (List.finRange 8).any fun d =>
    !isInBounds P (getNeighbourX x d) (getNeighbourY y d) ||
      decide (e (cellIdx P (getNeighbourX x d) (getNeighbourY y d)) = P.nodata)

/-- Body of the seeding scan for one cell (lines 246-267): a no-data cell is
marked processed with flow code 255; an edge cell gets flow code 255, is
pushed with spill equal to its raw elevation, and is marked queued; any
other cell is left untouched. -/
def seedCell (P : Ctx) (x y : ℕ) (s : St) : St :=
  let n := cellIdx P x y
  let z := s.elev n
  if s.elev n = P.nodata then
    { s with processed := Function.update s.processed n true,
             flowdir := Function.update s.flowdir n 255 }
  else if edgeTest P s.elev x y then
    { s with flowdir := Function.update s.flowdir n 255,
             queue := s.queue ++ [⟨z, x, y⟩],
             queued := Function.update s.queued n true,
             enqCount := Function.update s.enqCount n (s.enqCount n + 1) }
  else s

/-- Iteration order of the seeding double loop (lines 242-244): x outer,
y inner. -/
def seedPairs (P : Ctx) : List (ℕ × ℕ) :=
  (List.range P.xSize).flatMap fun x => (List.range P.ySize).map fun y => (x, y)

/-- The complete seeding scan (lines 242-269). -/
def seed (P : Ctx) (elev0 : ℕ → ℚ) : St :=
  (seedPairs P).foldl (fun s xy => seedCell P xy.1 xy.2 s) (seedInit elev0)

/-- Extraction from the priority queue: returns a minimal-spill node and the
remaining entries (`std::priority_queue` with the inverted comparator of
`node::operator<`; tie order among equal spills is implementation-defined
in the source, the model keeps the earliest-pushed one). -/
def popMin : List node → Option (node × List node)
  | [] => none
  | a :: rest =>
    match popMin rest with
    | none => some (a, [])
    | some (m, rest2) => if m.spill < a.spill then some (m, a :: rest2) else some (a, rest)

/-- Spill-elevation policy for a discovered neighbour (lines 303-312):
`z` is the discovering cell's spill elevation, `raw` the neighbour's current
(raw) elevation.  Preserve mode raises `raw` to at least `z + mindiff[d]`;
plain mode raises it to `z` whenever `raw <= z`. -/
def spillOf (P : Ctx) (z raw : ℚ) (d : Fin 8) : ℚ :=
  if P.preserve then
    if raw < z + mindiff P d then z + mindiff P d else raw
  else if raw ≤ z then z else raw

/-- Flow-direction effect of a discovery: only plain mode with `raw <= z`
forces the neighbour's direction code to `ldd[(d+4)%8]`, back toward the
discovering cell (line 311). -/
def discFlow (P : Ctx) (fd : ℕ → ℕ) (n : ℕ) (z raw : ℚ) (d : Fin 8) : ℕ → ℕ :=
  if P.preserve then fd
  else if raw ≤ z then Function.update fd n (ldd (oppDir d).castSucc)
  else fd

/-- Discovery of an unvisited in-bounds neighbour (lines 300-322): write the
spill elevation into the elevation buffer, apply the plain-mode forced flow
direction if any, push the neighbour, mark it queued, and record the ghost
enqueue event and discovery edge. -/
def discover (P : Ctx) (cx cy : ℤ) (z : ℚ) (s : St) (d : Fin 8) : St :=
  let nx := getNeighbourX cx d
  let ny := getNeighbourY cy d
  let n := cellIdx P nx ny
  let nz := spillOf P z (s.elev n) d
  { s with elev := Function.update s.elev n nz,
           flowdir := discFlow P s.flowdir n z (s.elev n) d,
           queue := s.queue ++ [⟨nz, nx, ny⟩],
           queued := Function.update s.queued n true,
           enqCount := Function.update s.enqCount n (s.enqCount n + 1),
           disc := s.disc ++ [⟨cellIdx P cx cy, d, n⟩] }

/-- Body of the neighbour loop of the draining loop (lines 284-334) for one
direction `d`: skip if out of bounds or already queued; discover the
neighbour if it is unprocessed. -/
def processNeighbour (P : Ctx) (cx cy : ℤ) (z : ℚ) (s : St) (d : Fin 8) : St :=
  let nx := getNeighbourX cx d
  let ny := getNeighbourY cy d
  let n := cellIdx P nx ny
  if isInBounds P nx ny && !s.queued n then
    if s.processed n then s else discover P cx cy z s d
  else s

/-- One iteration of the draining loop (lines 274-340): pop a minimal entry,
mark it processed and un-queued (recording the ghost resolution event and
the elevation value at resolution), run the neighbour loop, then, if the
cell's flow code is still 0, assign it lazily via `getFlowDir` (note the
truncation of `z` at the call, line 338). -/
def drainStep (P : Ctx) (s : St) : St :=
  match popMin s.queue with
  | none => s
  | some (cur, rest) =>
    let c := cellIdx P cur.x cur.y
    let z := cur.spill
    let s1 : St :=
      { s with queue := rest,
               processed := Function.update s.processed c true,
               queued := Function.update s.queued c false,
               resCount := Function.update s.resCount c (s.resCount c + 1),
               resElev := Function.update s.resElev c (some (s.elev c)) }
    let s2 := (List.finRange 8).foldl (processNeighbour P cur.x cur.y z) s1
    if s2.flowdir c = 0 then
      let code := ldd (getFlowDir P s2.elev s2.processed cur.x cur.y (cIntOfRat z))
      { s2 with flowdir := Function.update s2.flowdir c code }
    else s2

/-- The draining `while` loop with explicit fuel: stops when the queue is
empty (the fuel bound `3 * xSize * ySize` is proved sufficient below). -/
def drain (P : Ctx) : ℕ → St → St
  | 0, s => s
  | Nat.succ k, s => if s.queue = [] then s else drain P k (drainStep P s)

/-- A complete run: seeding followed by draining. -/
def run (P : Ctx) (elev0 : ℕ → ℚ) (fuel : ℕ) : St :=
  drain P fuel (seed P elev0)

/-- Number of queue entries for the cell with linear index `i`. -/
def countCell (P : Ctx) (q : List node) (i : ℕ) : ℕ :=
  q.countP fun nd => decide (cellIdx P nd.x nd.y = i)

/-- Number of grid cells that are neither queued nor processed. -/
def freeCount (P : Ctx) (s : St) : ℕ :=
  (List.range (P.xSize * P.ySize)).countP fun i => !s.queued i && !s.processed i

/-- Termination measure of the draining loop. -/
def mu (P : Ctx) (s : St) : ℕ := 2 * freeCount P s + s.queue.length

/-- A cell on the raster boundary. -/
def onBoundary (P : Ctx) (x y : ℕ) : Prop :=
  x = 0 ∨ x = P.xSize - 1 ∨ y = 0 ∨ y = P.ySize - 1

/-- The preserve-flag setup (lines 191-201): slope preservation is active
exactly when the configured minimum slope is positive; there is no
rejection path, every value (including negative ones) is accepted. -/
def configurePreserve (minslope : ℚ) : Bool := decide (0 < minslope)

/-- Default value of the minimum-slope option (line 84: `float minslope = 0.1`). -/
def minslopeDefault : ℚ := 1 / 10

/-- A cell that is queued or processed.  This disjunction is monotone over
the whole run and drives the completion argument. -/
def qp (s : St) (i : ℕ) : Prop := s.queued i = true ∨ s.processed i = true

/-- Two states agree at cell `j` on every per-cell field touched by seeding,
including the sublist of queue entries for `j`. -/
def agreeAt (P : Ctx) (j : ℕ) (s s2 : St) : Prop :=
  s2.queued j = s.queued j ∧ s2.processed j = s.processed j ∧
  s2.flowdir j = s.flowdir j ∧ s2.enqCount j = s.enqCount j ∧
  s2.queue.filter (fun nd => decide (cellIdx P nd.x nd.y = j)) =
    s.queue.filter (fun nd => decide (cellIdx P nd.x nd.y = j))

/-- Inductive invariant of the draining loop (ghost fields included): the
elevation buffer never drops below the raw input; the queue holds exactly
one entry per queued cell, each entry carrying the cell's current elevation
as its spill and in-bounds coordinates; queued cells are unprocessed; every
cell is enqueued and resolved at most once, enqueued cells are queued or
processed, resolved cells are processed; the recorded elevation at
resolution is the cell's current (hence final) elevation and at least the
raw one; no-data cells are processed with flow code 255, untouched
elevation, and were never enqueued; and every recorded discovery edge has a
processed source, a queued-or-processed target, and (in preserve mode) an
elevation gap of at least `mindiff[d]`. -/
structure Inv0 (P : Ctx) (elev0 : ℕ → ℚ) (s : St) : Prop where
  mono : ∀ i, elev0 i ≤ s.elev i
  qcount : ∀ i, countCell P s.queue i = if s.queued i then 1 else 0
  qmem : ∀ nd ∈ s.queue,
    isInBounds P nd.x nd.y = true ∧ nd.spill = s.elev (cellIdx P nd.x nd.y)
  qproc : ∀ i, s.queued i = true → s.processed i = false
  enq_le : ∀ i, s.enqCount i ≤ 1
  enq_stat : ∀ i, 0 < s.enqCount i → s.queued i = true ∨ s.processed i = true
  res_le : ∀ i, s.resCount i ≤ 1
  res_proc : ∀ i, 0 < s.resCount i → s.processed i = true
  resStable : ∀ i v, s.resElev i = some v →
    s.processed i = true ∧ s.elev i = v ∧ elev0 i ≤ v
  ndProcessed : ∀ i, i < P.xSize * P.ySize → elev0 i = P.nodata → s.processed i = true
  ndKeep : ∀ i, elev0 i = P.nodata → s.processed i = true →
    s.flowdir i = 255 ∧ s.elev i = elev0 i ∧ s.enqCount i = 0
  discInv : ∀ e ∈ s.disc, s.processed e.c = true ∧ qp s e.n ∧
    (P.preserve = true → s.elev e.c + mindiff P e.d ≤ s.elev e.n)

/-- Every processed non-no-data cell has all its in-bounds neighbours queued
or processed (its neighbour loop already ran). -/
def InvN (P : Ctx) (elev0 : ℕ → ℚ) (s : St) : Prop :=
  ∀ x y : ℤ, isInBounds P x y = true → s.processed (cellIdx P x y) = true →
    elev0 (cellIdx P x y) = P.nodata ∨
      ∀ d : Fin 8, isInBounds P (getNeighbourX x d) (getNeighbourY y d) = true →
        qp s (cellIdx P (getNeighbourX x d) (getNeighbourY y d))

/-- Full invariant. -/
def Inv (P : Ctx) (elev0 : ℕ → ℚ) (s : St) : Prop :=
  Inv0 P elev0 s ∧ InvN P elev0 s

/-- Outcome of the seeding scan at one in-grid cell. -/
def seedOutcome (P : Ctx) (e0 : ℕ → ℚ) (x y : ℕ) (s : St) : Prop :=
  (e0 (cellIdx P x y) = P.nodata →
    s.processed (cellIdx P x y) = true ∧ s.flowdir (cellIdx P x y) = 255 ∧
    s.queued (cellIdx P x y) = false ∧ s.enqCount (cellIdx P x y) = 0 ∧
    countCell P s.queue (cellIdx P x y) = 0) ∧
  (e0 (cellIdx P x y) ≠ P.nodata → edgeTest P e0 x y = true →
    s.queued (cellIdx P x y) = true ∧ s.processed (cellIdx P x y) = false ∧
    s.flowdir (cellIdx P x y) = 255 ∧ s.enqCount (cellIdx P x y) = 1 ∧
    countCell P s.queue (cellIdx P x y) = 1 ∧
    ∀ nd ∈ s.queue, cellIdx P nd.x nd.y = cellIdx P x y →
      nd = ⟨e0 (cellIdx P x y), x, y⟩) ∧
  (e0 (cellIdx P x y) ≠ P.nodata → edgeTest P e0 x y = false →
    s.queued (cellIdx P x y) = false ∧ s.processed (cellIdx P x y) = false ∧
    s.flowdir (cellIdx P x y) = 0 ∧ s.enqCount (cellIdx P x y) = 0 ∧
    countCell P s.queue (cellIdx P x y) = 0)

/-- Concrete inputs used by the per-claim witnesses (pixel sizes 3 and 4, so
the diagonal length is exactly 5). -/
def c1P : Ctx := ⟨2, 1, -5, 3, 4, 5, 0, false⟩

/-- Raw input raster for the C1 witness. -/
def c1G : ℕ → ℚ := fun i => [2, 3].getD i 0

/-- Context for the C2 witness. -/
def c2P : Ctx := ⟨2, 1, -5, 3, 4, 5, 0, false⟩

/-- State for the C2 witness: flat raster at elevation 5, nothing visited. -/
def c2S : St := seedInit fun _ => 5

/-- Context for the C3 witness: preserve mode with tangent value 1. -/
def c3P : Ctx := ⟨3, 3, -5, 3, 4, 5, 1, true⟩

/-- Raw input raster for the C3 witness: ring at 1, centre pit at 0. -/
def c3G : ℕ → ℚ := fun i => [1, 1, 1, 1, 0, 1, 1, 1, 1].getD i 0

/-- Context for the C4 evaluation: plain mode. -/
def c4P : Ctx := ⟨3, 3, -5, 3, 4, 5, 0, false⟩

/-- Raw input raster for the C4 evaluation: ring at 1 except the east
neighbour of the centre at 5/4; centre at 3/2.  The centre resolves with
spill 3/2, and the truncation of 3/2 to the int 1 changes the selected
flow direction. -/
def c4G : ℕ → ℚ := fun i => [1, 1, 1, 1, 3 / 2, 5 / 4, 1, 1, 1].getD i 0

/-- Context for the C5 witness. -/
def c5P : Ctx := ⟨2, 1, -5, 3, 4, 5, 0, false⟩

/-- Raw input raster for the C5 witness. -/
def c5G : ℕ → ℚ := fun i => [2, 3].getD i 0

/-- Context for the C6 witness. -/
def c6P : Ctx := ⟨2, 1, -5, 3, 4, 5, 0, false⟩

/-- Raw input raster for the C6 witness. -/
def c6G : ℕ → ℚ := fun i => [2, 3].getD i 0

/-- Context for the C7 witness. -/
def c7P : Ctx := ⟨2, 1, -5, 3, 4, 5, 0, false⟩

/-- Raw input raster for the C7 witness: cell 1 is no-data (value -5). -/
def c7G : ℕ → ℚ := fun i => [5, -5].getD i 0

/-- Context for the C8 witness. -/
def c8P : Ctx := ⟨2, 1, -5, 3, 4, 5, 0, false⟩

/-- Raw input raster for the C8 witness. -/
def c8G : ℕ → ℚ := fun i => [2, 3].getD i 0

/-- Context modelling a run configured with a negative minimum slope
(`-1`): line 191's test `minslope > 0.0` fails, so `preserve` is false and
the traversal runs in plain mode; nothing rejects the value. -/
def c9P : Ctx := ⟨2, 1, -5, 3, 4, 5, -1, false⟩

/-- Raw input raster for the C9 counterexample run. -/
def c9G : ℕ → ℚ := fun i => [2, 3].getD i 0

theorem foldl_pres {α β : Type} (f : β → α → β) (p : β → Prop)
    (hf : ∀ s a, p s → p (f s a)) :
    ∀ (l : List α) (s : β), p s → p (l.foldl f s)
  | [], _, h => h
  | a :: l, s, h => foldl_pres f p hf l (f s a) (hf s a h)

theorem foldl_establish {α β : Type} (f : β → α → β) (p : α → β → Prop)
    (hpres : ∀ s a b, p b s → p b (f s a)) (hest : ∀ s a, p a (f s a)) :
    ∀ (l : List α) (s : β) (a : α), a ∈ l → p a (l.foldl f s)
  | b :: l, s, a, hmem => by
    rcases List.mem_cons.mp hmem with rfl | h
    · exact foldl_pres f (p a) (fun s2 x h2 => hpres s2 x a h2) l (f s a) (hest s a)
    · exact foldl_establish f p hpres hest l (f s b) a h

theorem popMin_none : ∀ {l : List node}, popMin l = none → l = [] := by
  intro l h
  cases l with
  | nil => rfl
  | cons a t =>
    rw [popMin] at h
    cases ht : popMin t with
    | none => rw [ht] at h; simp at h
    | some p => obtain ⟨m, r⟩ := p; rw [ht] at h; dsimp at h; split at h <;> simp at h

theorem popMin_perm : ∀ {l : List node} {m : node} {rest : List node},
    popMin l = some (m, rest) → l.Perm (m :: rest) := by
  intro l
  induction l with
  | nil => intro m rest h; rw [popMin] at h; exact absurd h (by simp)
  | cons a t ih =>
    intro m rest h
    rw [popMin] at h
    cases ht : popMin t with
    | none =>
      rw [ht] at h
      obtain rfl := popMin_none ht
      simp only [Option.some.injEq, Prod.mk.injEq] at h
      obtain ⟨rfl, rfl⟩ := h
      exact List.Perm.refl _
    | some p =>
      obtain ⟨m0, r0⟩ := p
      rw [ht] at h
      dsimp at h
      by_cases hlt : m0.spill < a.spill
      · rw [if_pos hlt] at h
        simp only [Option.some.injEq, Prod.mk.injEq] at h
        obtain ⟨rfl, rfl⟩ := h
        exact ((ih ht).cons a).trans (List.Perm.swap m0 a r0)
      · rw [if_neg hlt] at h
        simp only [Option.some.injEq, Prod.mk.injEq] at h
        obtain ⟨rfl, rfl⟩ := h
        exact List.Perm.refl _

theorem isInBounds_iff {P : Ctx} {x y : ℤ} :
    isInBounds P x y = true ↔
      0 ≤ x ∧ x < (P.xSize : ℤ) ∧ 0 ≤ y ∧ y < (P.ySize : ℤ) := by
  simp [isInBounds, and_assoc]

theorem getIndex_bounds {P : Ctx} {x y : ℤ} (h : isInBounds P x y = true) :
    0 ≤ getIndex P x y ∧ getIndex P x y < (P.xSize : ℤ) * P.ySize := by
  obtain ⟨hx0, hxW, hy0, hyH⟩ := isInBounds_iff.mp h
  constructor
  · have : 0 ≤ y * (P.xSize : ℤ) := mul_nonneg hy0 (by positivity)
    simp only [getIndex]; omega
  · have h1 : y + 1 ≤ (P.ySize : ℤ) := by omega
    calc getIndex P x y < y * (P.xSize : ℤ) + P.xSize := by simp only [getIndex]; omega
      _ = (y + 1) * P.xSize := by ring
      _ ≤ (P.ySize : ℤ) * P.xSize :=
          mul_le_mul_of_nonneg_right h1 (by positivity)
      _ = (P.xSize : ℤ) * P.ySize := mul_comm _ _

theorem cellIdx_lt {P : Ctx} {x y : ℤ} (h : isInBounds P x y = true) :
    cellIdx P x y < P.xSize * P.ySize := by
  obtain ⟨h0, h1⟩ := getIndex_bounds h
  have : ((cellIdx P x y : ℕ) : ℤ) = getIndex P x y := Int.toNat_of_nonneg h0
  have h2 : ((cellIdx P x y : ℕ) : ℤ) < ((P.xSize * P.ySize : ℕ) : ℤ) := by
    rw [this]; push_cast; exact h1
  exact_mod_cast h2

theorem cellIdx_cast {P : Ctx} {x y : ℤ} (h : isInBounds P x y = true) :
    ((cellIdx P x y : ℕ) : ℤ) = getIndex P x y :=
  Int.toNat_of_nonneg (getIndex_bounds h).1

theorem cellIdx_inj {P : Ctx} {x y x2 y2 : ℤ} (h : isInBounds P x y = true)
    (h2 : isInBounds P x2 y2 = true) (he : cellIdx P x y = cellIdx P x2 y2) :
    x = x2 ∧ y = y2 := by
  obtain ⟨hx0, hxW, hy0, hyH⟩ := isInBounds_iff.mp h
  obtain ⟨hx0b, hxWb, hy0b, hyHb⟩ := isInBounds_iff.mp h2
  have hg : getIndex P x y = getIndex P x2 y2 := by
    rw [← cellIdx_cast h, ← cellIdx_cast h2, he]
  have hW : (0 : ℤ) < P.xSize := by omega
  have hx : x = x2 := by
    have e1 : x % (P.xSize : ℤ) = x := Int.emod_eq_of_lt hx0 hxW
    have e2 : x2 % (P.xSize : ℤ) = x2 := Int.emod_eq_of_lt hx0b hxWb
    have : (x + (P.xSize : ℤ) * y) % P.xSize = (x2 + (P.xSize : ℤ) * y2) % P.xSize := by
      have hx1 : x + (P.xSize : ℤ) * y = getIndex P x y := by simp only [getIndex]; ring
      have hx2 : x2 + (P.xSize : ℤ) * y2 = getIndex P x2 y2 := by simp only [getIndex]; ring
      rw [hx1, hx2, hg]
    rwa [Int.add_mul_emod_self_left, Int.add_mul_emod_self_left, e1, e2] at this
  refine ⟨hx, ?_⟩
  subst hx
  have : y * (P.xSize : ℤ) = y2 * P.xSize := by
    simp only [getIndex] at hg; omega
  exact mul_right_cancel₀ (by omega) this

theorem cellIdx_natCast (P : Ctx) (x y : ℕ) :
    cellIdx P (x : ℤ) (y : ℤ) = y * P.xSize + x := by
  have : getIndex P (x : ℤ) (y : ℤ) = ((y * P.xSize + x : ℕ) : ℤ) := by
    simp only [getIndex]; push_cast; ring
  rw [cellIdx, this, Int.toNat_natCast]

theorem ngh_oppDir (d : Fin 8) :
    (ngh (oppDir d)).1 = -(ngh d).1 ∧ (ngh (oppDir d)).2 = -(ngh d).2 := by
  fin_cases d <;> constructor <;> rfl

theorem spillOf_ge_raw (P : Ctx) (z raw : ℚ) (d : Fin 8) : raw ≤ spillOf P z raw d := by
  unfold spillOf
  split
  · split
    · exact le_of_lt (by assumption)
    · exact le_rfl
  · split
    · assumption
    · exact le_rfl

theorem spillOf_preserve {P : Ctx} (h : P.preserve = true) (z raw : ℚ) (d : Fin 8) :
    spillOf P z raw d = max raw (z + mindiff P d) := by
  unfold spillOf
  rw [if_pos h]
  split
  · exact (max_eq_right (le_of_lt (by assumption))).symm
  · exact (max_eq_left (not_lt.mp (by assumption))).symm

theorem spillOf_preserve_ge {P : Ctx} (h : P.preserve = true) (z raw : ℚ) (d : Fin 8) :
    z + mindiff P d ≤ spillOf P z raw d := by
  rw [spillOf_preserve h]
  exact le_max_right _ _

theorem spillOf_plain {P : Ctx} (h : P.preserve = false) (z raw : ℚ) (d : Fin 8) :
    spillOf P z raw d = if raw ≤ z then z else raw := by
  unfold spillOf
  rw [if_neg (by simp [h])]

theorem discFlow_plain_le {P : Ctx} (h : P.preserve = false) {z raw : ℚ} (hle : raw ≤ z)
    (fd : ℕ → ℕ) (n : ℕ) (d : Fin 8) :
    discFlow P fd n z raw d = Function.update fd n (ldd (oppDir d).castSucc) := by
  unfold discFlow
  rw [if_neg (by simp [h]), if_pos hle]

theorem discFlow_plain_gt {P : Ctx} (h : P.preserve = false) {z raw : ℚ} (hgt : z < raw)
    (fd : ℕ → ℕ) (n : ℕ) (d : Fin 8) :
    discFlow P fd n z raw d = fd := by
  unfold discFlow
  rw [if_neg (by simp [h]), if_neg (not_le.mpr hgt)]

theorem discFlow_preserve {P : Ctx} (h : P.preserve = true) (fd : ℕ → ℕ) (n : ℕ)
    (z raw : ℚ) (d : Fin 8) : discFlow P fd n z raw d = fd := by
  unfold discFlow
  rw [if_pos h]

theorem discover_elev (P : Ctx) (cx cy : ℤ) (z : ℚ) (s : St) (d : Fin 8) :
    (discover P cx cy z s d).elev =
      Function.update s.elev (nbrIdx P cx cy d)
        (spillOf P z (s.elev (nbrIdx P cx cy d)) d) := rfl

theorem discover_flowdir (P : Ctx) (cx cy : ℤ) (z : ℚ) (s : St) (d : Fin 8) :
    (discover P cx cy z s d).flowdir =
      discFlow P s.flowdir (nbrIdx P cx cy d) z (s.elev (nbrIdx P cx cy d)) d := rfl

theorem discover_queue (P : Ctx) (cx cy : ℤ) (z : ℚ) (s : St) (d : Fin 8) :
    (discover P cx cy z s d).queue =
      s.queue ++ [⟨spillOf P z (s.elev (nbrIdx P cx cy d)) d,
        getNeighbourX cx d, getNeighbourY cy d⟩] := rfl

theorem discover_queued (P : Ctx) (cx cy : ℤ) (z : ℚ) (s : St) (d : Fin 8) :
    (discover P cx cy z s d).queued =
      Function.update s.queued (nbrIdx P cx cy d) true := rfl

theorem discover_enqCount (P : Ctx) (cx cy : ℤ) (z : ℚ) (s : St) (d : Fin 8) :
    (discover P cx cy z s d).enqCount =
      Function.update s.enqCount (nbrIdx P cx cy d)
        (s.enqCount (nbrIdx P cx cy d) + 1) := rfl

theorem discover_disc (P : Ctx) (cx cy : ℤ) (z : ℚ) (s : St) (d : Fin 8) :
    (discover P cx cy z s d).disc =
      s.disc ++ [⟨cellIdx P cx cy, d, nbrIdx P cx cy d⟩] := rfl

theorem discover_processed (P : Ctx) (cx cy : ℤ) (z : ℚ) (s : St) (d : Fin 8) :
    (discover P cx cy z s d).processed = s.processed := rfl

theorem discover_resCount (P : Ctx) (cx cy : ℤ) (z : ℚ) (s : St) (d : Fin 8) :
    (discover P cx cy z s d).resCount = s.resCount := rfl

theorem discover_resElev (P : Ctx) (cx cy : ℤ) (z : ℚ) (s : St) (d : Fin 8) :
    (discover P cx cy z s d).resElev = s.resElev := rfl

theorem pn_spec (P : Ctx) (cx cy : ℤ) (z : ℚ) (s : St) (d : Fin 8) :
    processNeighbour P cx cy z s d = s ∨
      (isInBounds P (getNeighbourX cx d) (getNeighbourY cy d) = true ∧
       s.queued (nbrIdx P cx cy d) = false ∧
       s.processed (nbrIdx P cx cy d) = false ∧
       processNeighbour P cx cy z s d = discover P cx cy z s d) := by
  unfold processNeighbour
  by_cases h1 : (isInBounds P (getNeighbourX cx d) (getNeighbourY cy d) &&
      !s.queued (cellIdx P (getNeighbourX cx d) (getNeighbourY cy d))) = true
  · rw [if_pos h1]
    by_cases h2 : s.processed (cellIdx P (getNeighbourX cx d) (getNeighbourY cy d)) = true
    · rw [if_pos h2]
      exact Or.inl rfl
    · rw [if_neg h2]
      rw [Bool.and_eq_true] at h1
      exact Or.inr ⟨h1.1, by simpa using h1.2, by simpa using h2, rfl⟩
  · rw [if_neg h1]
    exact Or.inl rfl

theorem pn_processed (P : Ctx) (cx cy : ℤ) (z : ℚ) (s : St) (d : Fin 8) :
    (processNeighbour P cx cy z s d).processed = s.processed := by
  rcases pn_spec P cx cy z s d with h | ⟨_, _, _, h⟩ <;> rw [h]
  rfl

theorem pn_resCount (P : Ctx) (cx cy : ℤ) (z : ℚ) (s : St) (d : Fin 8) :
    (processNeighbour P cx cy z s d).resCount = s.resCount := by
  rcases pn_spec P cx cy z s d with h | ⟨_, _, _, h⟩ <;> rw [h]
  rfl

theorem pn_resElev (P : Ctx) (cx cy : ℤ) (z : ℚ) (s : St) (d : Fin 8) :
    (processNeighbour P cx cy z s d).resElev = s.resElev := by
  rcases pn_spec P cx cy z s d with h | ⟨_, _, _, h⟩ <;> rw [h]
  rfl

theorem pn_qp (P : Ctx) (cx cy : ℤ) (z : ℚ) (s : St) (d : Fin 8) {i : ℕ}
    (h : qp s i) : qp (processNeighbour P cx cy z s d) i := by
  rcases pn_spec P cx cy z s d with he | ⟨_, _, _, he⟩ <;> rw [he]
  · exact h
  rcases h with h | h
  · by_cases hi : i = nbrIdx P cx cy d
    · subst hi
      exact Or.inl (by rw [discover_queued]; simp)
    · exact Or.inl (by rw [discover_queued]; rwa [Function.update_noteq hi])
  · exact Or.inr (by rw [discover_processed]; exact h)

theorem pn_qp_self (P : Ctx) (cx cy : ℤ) (z : ℚ) (s : St) (d : Fin 8)
    (hin : isInBounds P (getNeighbourX cx d) (getNeighbourY cy d) = true) :
    qp (processNeighbour P cx cy z s d) (nbrIdx P cx cy d) := by
  rcases pn_spec P cx cy z s d with he | ⟨_, _, _, he⟩
  · unfold processNeighbour at he
    by_cases hq : s.queued (nbrIdx P cx cy d) = true
    · exact pn_qp P cx cy z s d (Or.inl hq)
    · by_cases hp : s.processed (nbrIdx P cx cy d) = true
      · exact pn_qp P cx cy z s d (Or.inr hp)
      · exfalso
        rw [if_pos (by unfold nbrIdx at hq; simp [hin, hq]), if_neg (by unfold nbrIdx at hp; exact hp)] at he
        have : (discover P cx cy z s d).queued (nbrIdx P cx cy d) = s.queued (nbrIdx P cx cy d) := by
          rw [he]
        rw [discover_queued] at this
        simp at this
        exact hq this
  · rw [he]
    exact Or.inl (by rw [discover_queued]; simp)

theorem seedCell_spec (P : Ctx) (x y : ℕ) (s : St) :
    (s.elev (cellIdx P x y) = P.nodata ∧
      seedCell P x y s =
        { s with processed := Function.update s.processed (cellIdx P x y) true,
                 flowdir := Function.update s.flowdir (cellIdx P x y) 255 }) ∨
    (¬s.elev (cellIdx P x y) = P.nodata ∧ edgeTest P s.elev x y = true ∧
      seedCell P x y s =
        { s with flowdir := Function.update s.flowdir (cellIdx P x y) 255,
                 queue := s.queue ++ [⟨s.elev (cellIdx P x y), x, y⟩],
                 queued := Function.update s.queued (cellIdx P x y) true,
                 enqCount := Function.update s.enqCount (cellIdx P x y)
                   (s.enqCount (cellIdx P x y) + 1) }) ∨
    (¬s.elev (cellIdx P x y) = P.nodata ∧ edgeTest P s.elev x y = false ∧
      seedCell P x y s = s) := by
  unfold seedCell
  by_cases h1 : s.elev (cellIdx P (x : ℤ) (y : ℤ)) = P.nodata
  · rw [if_pos h1]
    exact Or.inl ⟨h1, rfl⟩
  · rw [if_neg h1]
    by_cases h2 : edgeTest P s.elev x y = true
    · rw [if_pos h2]
      exact Or.inr (Or.inl ⟨h1, h2, rfl⟩)
    · rw [if_neg h2]
      exact Or.inr (Or.inr ⟨h1, by simpa using h2, rfl⟩)

theorem seedCell_elev (P : Ctx) (x y : ℕ) (s : St) :
    (seedCell P x y s).elev = s.elev := by
  rcases seedCell_spec P x y s with ⟨_, h⟩ | ⟨_, _, h⟩ | ⟨_, _, h⟩ <;> rw [h]

theorem seedCell_processed_other (P : Ctx) (x y : ℕ) (s : St) {j : ℕ}
    (hj : j ≠ cellIdx P x y) :
    (seedCell P x y s).processed j = s.processed j := by
  rcases seedCell_spec P x y s with ⟨_, h⟩ | ⟨_, _, h⟩ | ⟨_, _, h⟩ <;> rw [h]
  exact Function.update_noteq hj _ _

theorem seedCell_agree (P : Ctx) (x y : ℕ) (s : St) {j : ℕ}
    (hj : j ≠ cellIdx P x y) : agreeAt P j s (seedCell P x y s) := by
  have hq : ∀ (q : List node) (z : ℚ),
      (q ++ [(⟨z, (x : ℤ), (y : ℤ)⟩ : node)]).filter
          (fun nd => decide (cellIdx P nd.x nd.y = j)) =
        q.filter fun nd => decide (cellIdx P nd.x nd.y = j) := by
    intro q z
    rw [List.filter_append]
    have : ¬cellIdx P (x : ℤ) (y : ℤ) = j := fun h => hj h.symm
    simp [this]
  rcases seedCell_spec P x y s with ⟨_, h⟩ | ⟨_, _, h⟩ | ⟨_, _, h⟩ <;> rw [h] <;>
    refine ⟨?_, ?_, ?_, ?_, ?_⟩ <;>
    simp [Function.update_noteq hj, hq]

theorem seedCell_resCount (P : Ctx) (x y : ℕ) (s : St) :
    (seedCell P x y s).resCount = s.resCount := by
  rcases seedCell_spec P x y s with ⟨_, h⟩ | ⟨_, _, h⟩ | ⟨_, _, h⟩ <;> rw [h]

theorem seedCell_resElev (P : Ctx) (x y : ℕ) (s : St) :
    (seedCell P x y s).resElev = s.resElev := by
  rcases seedCell_spec P x y s with ⟨_, h⟩ | ⟨_, _, h⟩ | ⟨_, _, h⟩ <;> rw [h]

theorem seedCell_disc (P : Ctx) (x y : ℕ) (s : St) :
    (seedCell P x y s).disc = s.disc := by
  rcases seedCell_spec P x y s with ⟨_, h⟩ | ⟨_, _, h⟩ | ⟨_, _, h⟩ <;> rw [h]

theorem seedFold_elev (P : Ctx) :
    ∀ (l : List (ℕ × ℕ)) (s : St),
      (l.foldl (fun s2 xy => seedCell P xy.1 xy.2 s2) s).elev = s.elev
  | [], _ => rfl
  | p :: l, s => by
    rw [List.foldl_cons, seedFold_elev P l, seedCell_elev]

theorem seedFold_resCount (P : Ctx) :
    ∀ (l : List (ℕ × ℕ)) (s : St),
      (l.foldl (fun s2 xy => seedCell P xy.1 xy.2 s2) s).resCount = s.resCount
  | [], _ => rfl
  | p :: l, s => by
    rw [List.foldl_cons, seedFold_resCount P l, seedCell_resCount]

theorem seedFold_resElev (P : Ctx) :
    ∀ (l : List (ℕ × ℕ)) (s : St),
      (l.foldl (fun s2 xy => seedCell P xy.1 xy.2 s2) s).resElev = s.resElev
  | [], _ => rfl
  | p :: l, s => by
    rw [List.foldl_cons, seedFold_resElev P l, seedCell_resElev]

theorem seedFold_disc (P : Ctx) :
    ∀ (l : List (ℕ × ℕ)) (s : St),
      (l.foldl (fun s2 xy => seedCell P xy.1 xy.2 s2) s).disc = s.disc
  | [], _ => rfl
  | p :: l, s => by
    rw [List.foldl_cons, seedFold_disc P l, seedCell_disc]

theorem agreeAt_trans {P : Ctx} {j : ℕ} {s1 s2 s3 : St}
    (h1 : agreeAt P j s1 s2) (h2 : agreeAt P j s2 s3) : agreeAt P j s1 s3 := by
  obtain ⟨a1, a2, a3, a4, a5⟩ := h1
  obtain ⟨b1, b2, b3, b4, b5⟩ := h2
  exact ⟨b1.trans a1, b2.trans a2, b3.trans a3, b4.trans a4, b5.trans a5⟩

theorem seedFold_agree (P : Ctx) {j : ℕ} :
    ∀ (l : List (ℕ × ℕ)) (s : St), (∀ p ∈ l, cellIdx P (p.1 : ℤ) (p.2 : ℤ) ≠ j) →
      agreeAt P j s (l.foldl (fun s2 xy => seedCell P xy.1 xy.2 s2) s)
  | [], _, _ => ⟨rfl, rfl, rfl, rfl, rfl⟩
  | p :: l, s, hl => by
    rw [List.foldl_cons]
    have h1 : agreeAt P j s (seedCell P p.1 p.2 s) :=
      seedCell_agree P p.1 p.2 s fun h => hl p (List.mem_cons_self p l) h.symm
    exact agreeAt_trans h1
      (seedFold_agree P l _ fun q hq => hl q (List.mem_cons_of_mem p hq))

theorem seedFold_queue (P : Ctx) (e0 : ℕ → ℚ) :
    ∀ (l : List (ℕ × ℕ)) (s : St), s.elev = e0 →
      ∀ nd ∈ (l.foldl (fun s2 xy => seedCell P xy.1 xy.2 s2) s).queue,
        nd ∈ s.queue ∨ ∃ p, p ∈ l ∧ e0 (cellIdx P (p.1 : ℤ) (p.2 : ℤ)) ≠ P.nodata ∧
          edgeTest P e0 p.1 p.2 = true ∧
          nd = ⟨e0 (cellIdx P (p.1 : ℤ) (p.2 : ℤ)), (p.1 : ℤ), (p.2 : ℤ)⟩
  | [], _, _, _, hnd => Or.inl hnd
  | p :: l, s, he, nd, hnd => by
    rw [List.foldl_cons] at hnd
    have he2 : (seedCell P p.1 p.2 s).elev = e0 := by rw [seedCell_elev, he]
    rcases seedFold_queue P e0 l _ he2 nd hnd with hmem | ⟨q, hq, h1, h2, h3⟩
    · rcases seedCell_spec P p.1 p.2 s with ⟨_, h⟩ | ⟨hnz, het, h⟩ | ⟨_, _, h⟩
      · rw [h] at hmem
        exact Or.inl hmem
      · rw [h] at hmem
        rcases List.mem_append.mp hmem with hmem2 | hmem2
        · exact Or.inl hmem2
        · refine Or.inr ⟨p, List.mem_cons_self p l, ?_, ?_, ?_⟩
          · rwa [he] at hnz
          · rwa [he] at het
          · rw [← he]
            simpa using hmem2
      · rw [h] at hmem
        exact Or.inl hmem
    · exact Or.inr ⟨q, List.mem_cons_of_mem p hq, h1, h2, h3⟩

theorem seedPairs_mem (P : Ctx) {x y : ℕ} :
    (x, y) ∈ seedPairs P ↔ x < P.xSize ∧ y < P.ySize := by
  simp [seedPairs, List.mem_flatMap, List.mem_map, List.mem_range]

theorem seedPairs_mem_bounds (P : Ctx) {p : ℕ × ℕ} (h : p ∈ seedPairs P) :
    p.1 < P.xSize ∧ p.2 < P.ySize := by
  obtain ⟨a, b⟩ := p
  exact (seedPairs_mem P).mp h

theorem seedPairs_nodup (P : Ctx) : (seedPairs P).Nodup := by
  rw [seedPairs, List.nodup_flatMap]
  constructor
  · intro x _
    exact (List.nodup_range _).map fun a b h => by simpa using h
  · refine (List.nodup_range P.xSize).imp ?_
    intro a b hab q hqa hqb
    simp only [List.mem_map, List.mem_range] at hqa hqb
    obtain ⟨y1, _, rfl⟩ := hqa
    obtain ⟨y2, _, e2⟩ := hqb
    exact hab (by simpa using congrArg Prod.fst e2.symm)

theorem isInBounds_natCast (P : Ctx) {x y : ℕ} (hx : x < P.xSize) (hy : y < P.ySize) :
    isInBounds P (x : ℤ) (y : ℤ) = true := by
  rw [isInBounds_iff]
  refine ⟨by positivity, by exact_mod_cast hx, by positivity, by exact_mod_cast hy⟩

theorem countCell_filter (P : Ctx) (q : List node) (j : ℕ) :
    countCell P q j = (q.filter fun nd => decide (cellIdx P nd.x nd.y = j)).length :=
  List.countP_eq_length_filter _ _

theorem seedCell_self (P : Ctx) (e0 : ℕ → ℚ) (x y : ℕ) (s : St)
    (he : s.elev = e0)
    (hq : s.queued (cellIdx P x y) = false) (hp : s.processed (cellIdx P x y) = false)
    (hf : s.flowdir (cellIdx P x y) = 0) (hn : s.enqCount (cellIdx P x y) = 0)
    (hc : countCell P s.queue (cellIdx P x y) = 0) :
    seedOutcome P e0 x y (seedCell P x y s) := by
  subst he
  rcases seedCell_spec P x y s with ⟨h1, h⟩ | ⟨h1, h2, h⟩ | ⟨h1, h2, h⟩
  · refine ⟨?_, ?_, ?_⟩
    · intro _
      rw [h]
      exact ⟨by simp, by simp, hq, hn, hc⟩
    · intro hne _
      exact absurd h1 hne
    · intro hne _
      exact absurd h1 hne
  · refine ⟨?_, ?_, ?_⟩
    · intro hnd
      exact absurd hnd h1
    · intro _ _
      have hcnt : ∀ nd ∈ s.queue, ¬(cellIdx P nd.x nd.y = cellIdx P (x : ℤ) (y : ℤ)) := by
        intro nd hnd
        have := (List.countP_eq_zero.mp hc) nd hnd
        simpa using this
      rw [h]
      refine ⟨by simp, by simpa using hp, by simp, by simp [hn], ?_, ?_⟩
      · show countCell P (s.queue ++ [⟨s.elev (cellIdx P x y), (x : ℤ), (y : ℤ)⟩])
          (cellIdx P x y) = 1
        rw [countCell, List.countP_append, ← countCell, hc]
        simp [countCell]
      · intro nd hnd hidx
        rcases List.mem_append.mp hnd with hmem | hmem
        · exact absurd hidx (hcnt nd hmem)
        · simpa using hmem
    · intro _ hef
      rw [hef] at h2
      cases h2
  · refine ⟨?_, ?_, ?_⟩
    · intro hnd
      exact absurd hnd h1
    · intro _ het
      rw [het] at h2
      cases h2
    · intro _ _
      rw [h]
      exact ⟨hq, hp, hf, hn, hc⟩

theorem seedOutcome_transfer (P : Ctx) (e0 : ℕ → ℚ) (x y : ℕ) {s s2 : St}
    (hagree : agreeAt P (cellIdx P x y) s s2)
    (h : seedOutcome P e0 x y s) : seedOutcome P e0 x y s2 := by
  obtain ⟨a1, a2, a3, a4, a5⟩ := hagree
  obtain ⟨h1, h2, h3⟩ := h
  have hcq : countCell P s2.queue (cellIdx P x y) = countCell P s.queue (cellIdx P x y) := by
    rw [countCell_filter, countCell_filter, a5]
  refine ⟨fun hnd => ?_, fun hnd het => ?_, fun hnd het => ?_⟩
  · obtain ⟨p1, p2, p3, p4, p5⟩ := h1 hnd
    exact ⟨a2.trans p1, a3.trans p2, a1.trans p3, a4.trans p4, hcq.trans p5⟩
  · obtain ⟨p1, p2, p3, p4, p5, p6⟩ := h2 hnd het
    refine ⟨a1.trans p1, a2.trans p2, a3.trans p3, a4.trans p4, hcq.trans p5, ?_⟩
    intro nd hnd2 hidx
    have hmem : nd ∈ s2.queue.filter fun nd2 => decide (cellIdx P nd2.x nd2.y = cellIdx P x y) :=
      List.mem_filter.mpr ⟨hnd2, by simpa using hidx⟩
    rw [a5] at hmem
    exact p6 nd (List.mem_filter.mp hmem).1 hidx
  · obtain ⟨p1, p2, p3, p4, p5⟩ := h3 hnd het
    exact ⟨a1.trans p1, a2.trans p2, a3.trans p3, a4.trans p4, hcq.trans p5⟩

theorem cellIdx_pair_ne (P : Ctx) {p : ℕ × ℕ} {x y : ℕ}
    (hp : p ∈ seedPairs P) (hxy : (x, y) ∈ seedPairs P) (hne : p ≠ (x, y)) :
    cellIdx P (p.1 : ℤ) (p.2 : ℤ) ≠ cellIdx P (x : ℤ) (y : ℤ) := by
  intro heq
  obtain ⟨hb1, hb2⟩ := seedPairs_mem_bounds P hp
  obtain ⟨hbx, hby⟩ := seedPairs_mem_bounds P hxy
  obtain ⟨e1, e2⟩ := cellIdx_inj (isInBounds_natCast P hb1 hb2)
    (isInBounds_natCast P hbx hby) heq
  exact hne (Prod.ext (by exact_mod_cast e1) (by exact_mod_cast e2))

theorem seed_elev (P : Ctx) (e0 : ℕ → ℚ) : (seed P e0).elev = e0 := by
  rw [seed, seedFold_elev]
  rfl

theorem seed_resCount (P : Ctx) (e0 : ℕ → ℚ) : (seed P e0).resCount = fun _ => 0 := by
  rw [seed, seedFold_resCount]
  rfl

theorem seed_resElev (P : Ctx) (e0 : ℕ → ℚ) : (seed P e0).resElev = fun _ => none := by
  rw [seed, seedFold_resElev]
  rfl

theorem seed_disc (P : Ctx) (e0 : ℕ → ℚ) : (seed P e0).disc = [] := by
  rw [seed, seedFold_disc]
  rfl

theorem seed_outcome (P : Ctx) (e0 : ℕ → ℚ) (x y : ℕ)
    (hx : x < P.xSize) (hy : y < P.ySize) :
    seedOutcome P e0 x y (seed P e0) := by
  have hmem : (x, y) ∈ seedPairs P := (seedPairs_mem P).mpr ⟨hx, hy⟩
  obtain ⟨L1, L2, hsplit⟩ := List.append_of_mem hmem
  have hnodup := seedPairs_nodup P
  rw [hsplit, List.nodup_append] at hnodup
  obtain ⟨hnd1, hnd2, hdisj⟩ := hnodup
  have hxyL2 : (x, y) ∉ L2 := (List.nodup_cons.mp hnd2).1
  have hxyL1 : (x, y) ∉ L1 := fun h => hdisj h (List.mem_cons_self _ _)
  have hmemL1 : ∀ p ∈ L1, p ∈ seedPairs P := fun p hp =>
    hsplit ▸ List.mem_append_left _ hp
  have hmemL2 : ∀ p ∈ L2, p ∈ seedPairs P := fun p hp =>
    hsplit ▸ List.mem_append_right _ (List.mem_cons_of_mem _ hp)
  rw [seed, hsplit, List.foldl_append, List.foldl_cons]
  have hAelev : (L1.foldl (fun s2 xy => seedCell P xy.1 xy.2 s2) (seedInit e0)).elev = e0 :=
    seedFold_elev P L1 (seedInit e0)
  have hAagree : agreeAt P (cellIdx P x y) (seedInit e0)
      (L1.foldl (fun s2 xy => seedCell P xy.1 xy.2 s2) (seedInit e0)) :=
    seedFold_agree P L1 (seedInit e0) fun p hp =>
      cellIdx_pair_ne P (hmemL1 p hp) hmem fun h => hxyL1 (h ▸ hp)
  obtain ⟨a1, a2, a3, a4, a5⟩ := hAagree
  have hself := seedCell_self P e0 x y _ hAelev (by rw [a1]; rfl) (by rw [a2]; rfl)
    (by rw [a3]; rfl) (by rw [a4]; rfl)
    (by rw [countCell_filter, a5]; rfl)
  have hBagree : agreeAt P (cellIdx P x y) _
      (L2.foldl (fun s2 xy => seedCell P xy.1 xy.2 s2)
        (seedCell P x y (L1.foldl (fun s2 xy => seedCell P xy.1 xy.2 s2) (seedInit e0)))) :=
    seedFold_agree P L2 _ fun p hp =>
      cellIdx_pair_ne P (hmemL2 p hp) hmem fun h => hxyL2 (h ▸ hp)
  exact seedOutcome_transfer P e0 x y hBagree hself

theorem seed_untouched (P : Ctx) (e0 : ℕ → ℚ) (j : ℕ)
    (hj : ∀ p ∈ seedPairs P, cellIdx P (p.1 : ℤ) (p.2 : ℤ) ≠ j) :
    agreeAt P j (seedInit e0) (seed P e0) := by
  rw [seed]
  exact seedFold_agree P _ _ hj

theorem seed_queue (P : Ctx) (e0 : ℕ → ℚ) :
    ∀ nd ∈ (seed P e0).queue, ∃ p, p ∈ seedPairs P ∧
      e0 (cellIdx P (p.1 : ℤ) (p.2 : ℤ)) ≠ P.nodata ∧
      edgeTest P e0 p.1 p.2 = true ∧
      nd = ⟨e0 (cellIdx P (p.1 : ℤ) (p.2 : ℤ)), (p.1 : ℤ), (p.2 : ℤ)⟩ := by
  intro nd hnd
  rcases seedFold_queue P e0 (seedPairs P) (seedInit e0) rfl nd hnd with h | h
  · cases h
  · exact h

theorem cell_classify (P : Ctx) (e0 : ℕ → ℚ) (i : ℕ) :
    (∃ x y : ℕ, x < P.xSize ∧ y < P.ySize ∧ i = cellIdx P x y) ∨
      agreeAt P i (seedInit e0) (seed P e0) := by
  by_cases h : ∃ x y : ℕ, x < P.xSize ∧ y < P.ySize ∧ i = cellIdx P x y
  · exact Or.inl h
  · refine Or.inr (seed_untouched P e0 i ?_)
    intro p hp heq
    obtain ⟨h1, h2⟩ := seedPairs_mem_bounds P hp
    exact h ⟨p.1, p.2, h1, h2, heq.symm⟩

theorem index_to_pair (P : Ctx) {i : ℕ} (h : i < P.xSize * P.ySize) :
    ∃ x y : ℕ, x < P.xSize ∧ y < P.ySize ∧ cellIdx P x y = i := by
  have hW : 0 < P.xSize := by
    rcases Nat.eq_zero_or_pos P.xSize with h0 | h0
    · rw [h0] at h
      omega
    · exact h0
  refine ⟨i % P.xSize, i / P.xSize, Nat.mod_lt _ hW, ?_, ?_⟩
  · exact Nat.div_lt_of_lt_mul h
  · rw [cellIdx_natCast, Nat.mul_comm]
    exact Nat.div_add_mod i P.xSize

theorem inB_to_pair (P : Ctx) {x y : ℤ} (h : isInBounds P x y = true) :
    ∃ a b : ℕ, a < P.xSize ∧ b < P.ySize ∧ (a : ℤ) = x ∧ (b : ℤ) = y := by
  obtain ⟨h1, h2, h3, h4⟩ := isInBounds_iff.mp h
  exact ⟨x.toNat, y.toNat, by omega, by omega,
    Int.toNat_of_nonneg h1, Int.toNat_of_nonneg h3⟩

theorem seed_inv0 (P : Ctx) (e0 : ℕ → ℚ) : Inv0 P e0 (seed P e0) := by
  constructor
  case mono =>
    intro i
    rw [seed_elev]
  case qcount =>
    intro i
    rcases cell_classify P e0 i with ⟨x, y, hx, hy, rfl⟩ | hag
    · obtain ⟨o1, o2, o3⟩ := seed_outcome P e0 x y hx hy
      by_cases hnd : e0 (cellIdx P x y) = P.nodata
      · obtain ⟨_, _, q1, _, q2⟩ := o1 hnd
        rw [q1, q2]
        rfl
      · by_cases het : edgeTest P e0 x y = true
        · obtain ⟨q1, _, _, _, q2, _⟩ := o2 hnd het
          rw [q1, q2]
          rfl
        · obtain ⟨q1, _, _, _, q2⟩ := o3 hnd (by simpa using het)
          rw [q1, q2]
          rfl
    · obtain ⟨a1, _, _, _, a5⟩ := hag
      rw [a1, countCell_filter, a5]
      rfl
  case qmem =>
    intro nd hnd
    obtain ⟨p, hp, hne, het, rfl⟩ := seed_queue P e0 nd hnd
    obtain ⟨h1, h2⟩ := seedPairs_mem_bounds P hp
    exact ⟨isInBounds_natCast P h1 h2, by rw [seed_elev]⟩
  case qproc =>
    intro i hq
    rcases cell_classify P e0 i with ⟨x, y, hx, hy, rfl⟩ | hag
    · obtain ⟨o1, o2, o3⟩ := seed_outcome P e0 x y hx hy
      by_cases hnd : e0 (cellIdx P x y) = P.nodata
      · obtain ⟨_, _, q1, _, _⟩ := o1 hnd
        rw [hq] at q1
        cases q1
      · by_cases het : edgeTest P e0 x y = true
        · exact (o2 hnd het).2.1
        · obtain ⟨q1, q2, _⟩ := o3 hnd (by simpa using het)
          rw [hq] at q1
          cases q1
    · obtain ⟨a1, a2, _⟩ := hag
      rw [a1] at hq
      cases hq
  case enq_le =>
    intro i
    rcases cell_classify P e0 i with ⟨x, y, hx, hy, rfl⟩ | hag
    · obtain ⟨o1, o2, o3⟩ := seed_outcome P e0 x y hx hy
      by_cases hnd : e0 (cellIdx P x y) = P.nodata
      · obtain ⟨_, _, _, q1, _⟩ := o1 hnd
        rw [q1]
        omega
      · by_cases het : edgeTest P e0 x y = true
        · obtain ⟨_, _, _, q1, _, _⟩ := o2 hnd het
          rw [q1]
        · obtain ⟨_, _, _, q1, _⟩ := o3 hnd (by simpa using het)
          rw [q1]
          omega
    · obtain ⟨_, _, _, a4, _⟩ := hag
      rw [a4]
      exact Nat.zero_le _
  case enq_stat =>
    intro i hpos
    rcases cell_classify P e0 i with ⟨x, y, hx, hy, rfl⟩ | hag
    · obtain ⟨o1, o2, o3⟩ := seed_outcome P e0 x y hx hy
      by_cases hnd : e0 (cellIdx P x y) = P.nodata
      · obtain ⟨_, _, _, q1, _⟩ := o1 hnd
        rw [q1] at hpos
        omega
      · by_cases het : edgeTest P e0 x y = true
        · exact Or.inl (o2 hnd het).1
        · obtain ⟨_, _, _, q1, _⟩ := o3 hnd (by simpa using het)
          rw [q1] at hpos
          omega
    · obtain ⟨_, _, _, a4, _⟩ := hag
      rw [a4] at hpos
      simp [seedInit] at hpos
  case res_le =>
    intro i
    rw [seed_resCount]
    exact Nat.zero_le _
  case res_proc =>
    intro i hpos
    rw [seed_resCount] at hpos
    simp at hpos
  case resStable =>
    intro i v hv
    rw [seed_resElev] at hv
    cases hv
  case ndProcessed =>
    intro i hi hnd
    obtain ⟨x, y, hx, hy, rfl⟩ := index_to_pair P hi
    exact ((seed_outcome P e0 x y hx hy).1 hnd).1
  case ndKeep =>
    intro i hnd hproc
    rcases cell_classify P e0 i with ⟨x, y, hx, hy, rfl⟩ | hag
    · obtain ⟨_, q2, _, q4, _⟩ := (seed_outcome P e0 x y hx hy).1 hnd
      exact ⟨q2, by rw [seed_elev], q4⟩
    · obtain ⟨_, a2, _⟩ := hag
      rw [a2] at hproc
      cases hproc
  case discInv =>
    intro e he
    rw [seed_disc] at he
    cases he

theorem seed_invN (P : Ctx) (e0 : ℕ → ℚ) : InvN P e0 (seed P e0) := by
  intro x y hin hproc
  obtain ⟨a, b, ha, hb, hax, hby⟩ := inB_to_pair P hin
  subst hax
  subst hby
  obtain ⟨o1, o2, o3⟩ := seed_outcome P e0 a b ha hb
  by_cases hnd : e0 (cellIdx P a b) = P.nodata
  · exact Or.inl hnd
  · exfalso
    by_cases het : edgeTest P e0 a b = true
    · obtain ⟨_, q2, _⟩ := o2 hnd het
      rw [hproc] at q2
      cases q2
    · obtain ⟨_, q2, _⟩ := o3 hnd (by simpa using het)
      rw [hproc] at q2
      cases q2

theorem seed_inv (P : Ctx) (e0 : ℕ → ℚ) : Inv P e0 (seed P e0) :=
  ⟨seed_inv0 P e0, seed_invN P e0⟩

theorem discFlow_other (P : Ctx) (fd : ℕ → ℕ) (n : ℕ) (z raw : ℚ) (d : Fin 8)
    {j : ℕ} (hj : j ≠ n) : discFlow P fd n z raw d j = fd j := by
  unfold discFlow
  split
  · rfl
  split
  · exact Function.update_noteq hj _ _
  · rfl

theorem countCell_append_single (P : Ctx) (q : List node) (nd : node) (i : ℕ) :
    countCell P (q ++ [nd]) i =
      countCell P q i + if cellIdx P nd.x nd.y = i then 1 else 0 := by
  rw [countCell, List.countP_append, List.countP_cons, List.countP_nil]
  rw [← countCell]
  by_cases h : cellIdx P nd.x nd.y = i
  · simp [h]
  · simp [h]

theorem queued_of_mem {P : Ctx} {e0 : ℕ → ℚ} {s : St} (h0 : Inv0 P e0 s)
    {nd : node} (hnd : nd ∈ s.queue) : s.queued (cellIdx P nd.x nd.y) = true := by
  have hcnt : 0 < countCell P s.queue (cellIdx P nd.x nd.y) := by
    rw [countCell]
    exact List.countP_pos_iff.mpr ⟨nd, hnd, by simp⟩
  by_contra hq
  have hq2 : s.queued (cellIdx P nd.x nd.y) = false := by
    cases hval : s.queued (cellIdx P nd.x nd.y)
    · rfl
    · exact absurd hval hq
  rw [h0.qcount, hq2] at hcnt
  simp at hcnt

theorem pn_stepinv (P : Ctx) (e0 : ℕ → ℚ) (cx cy : ℤ) (z : ℚ) (s : St) (d : Fin 8)
    (h0 : Inv0 P e0 s) (hc : s.processed (cellIdx P cx cy) = true)
    (hz : s.elev (cellIdx P cx cy) = z) :
    Inv0 P e0 (processNeighbour P cx cy z s d) ∧
      (processNeighbour P cx cy z s d).processed (cellIdx P cx cy) = true ∧
      (processNeighbour P cx cy z s d).elev (cellIdx P cx cy) = z := by
  rcases pn_spec P cx cy z s d with he | ⟨hin, hq, hp, he⟩
  · rw [he]
    exact ⟨h0, hc, hz⟩
  rw [he]
  have hcn : cellIdx P cx cy ≠ nbrIdx P cx cy d := by
    intro heq
    rw [heq, hp] at hc
    cases hc
  have henq0 : s.enqCount (nbrIdx P cx cy d) = 0 := by
    by_contra hne
    rcases h0.enq_stat (nbrIdx P cx cy d) (Nat.pos_of_ne_zero hne) with h | h
    · rw [h] at hq
      cases hq
    · rw [h] at hp
      cases hp
  refine ⟨?_, ?_, ?_⟩
  · constructor
    case mono =>
      intro i
      rw [discover_elev]
      by_cases hi : i = nbrIdx P cx cy d
      · subst hi
        rw [Function.update_same]
        exact (h0.mono _).trans (spillOf_ge_raw P z _ d)
      · rw [Function.update_noteq hi]
        exact h0.mono i
    case qcount =>
      intro i
      rw [discover_queue, discover_queued, countCell_append_single]
      have hnode : cellIdx P (getNeighbourX cx d) (getNeighbourY cy d) = nbrIdx P cx cy d := rfl
      by_cases hi : i = nbrIdx P cx cy d
      · subst hi
        rw [Function.update_same, h0.qcount, hq]
        simp [hnode]
      · have hcond : ¬(nbrIdx P cx cy d = i) := fun h2 => hi h2.symm
        rw [Function.update_noteq hi, h0.qcount]
        simp only [hnode]
        rw [if_neg hcond, Nat.add_zero]
    case qmem =>
      intro nd hnd
      rw [discover_queue] at hnd
      rw [discover_elev]
      rcases List.mem_append.mp hnd with hmem | hmem
      · obtain ⟨hb, hs⟩ := h0.qmem nd hmem
        refine ⟨hb, ?_⟩
        have hqnd : s.queued (cellIdx P nd.x nd.y) = true := queued_of_mem h0 hmem
        have : cellIdx P nd.x nd.y ≠ nbrIdx P cx cy d := by
          intro heq
          rw [heq, hq] at hqnd
          cases hqnd
        rw [Function.update_noteq this]
        exact hs
      · have : nd = ⟨spillOf P z (s.elev (nbrIdx P cx cy d)) d,
            getNeighbourX cx d, getNeighbourY cy d⟩ := by simpa using hmem
        subst this
        refine ⟨hin, ?_⟩
        show spillOf P z (s.elev (nbrIdx P cx cy d)) d =
          Function.update s.elev (nbrIdx P cx cy d)
            (spillOf P z (s.elev (nbrIdx P cx cy d)) d) (nbrIdx P cx cy d)
        rw [Function.update_same]
    case qproc =>
      intro i hqi
      rw [discover_queued] at hqi
      rw [discover_processed]
      by_cases hi : i = nbrIdx P cx cy d
      · subst hi
        exact hp
      · rw [Function.update_noteq hi] at hqi
        exact h0.qproc i hqi
    case enq_le =>
      intro i
      rw [discover_enqCount]
      by_cases hi : i = nbrIdx P cx cy d
      · subst hi
        rw [Function.update_same, henq0]
      · rw [Function.update_noteq hi]
        exact h0.enq_le i
    case enq_stat =>
      intro i hpos
      rw [discover_enqCount] at hpos
      rw [discover_queued, discover_processed]
      by_cases hi : i = nbrIdx P cx cy d
      · subst hi
        exact Or.inl (Function.update_same _ _ _)
      · rw [Function.update_noteq hi] at hpos
        rcases h0.enq_stat i hpos with h | h
        · exact Or.inl (by rw [Function.update_noteq hi]; exact h)
        · exact Or.inr h
    case res_le =>
      intro i
      rw [discover_resCount]
      exact h0.res_le i
    case res_proc =>
      intro i hpos
      rw [discover_resCount] at hpos
      rw [discover_processed]
      exact h0.res_proc i hpos
    case resStable =>
      intro i v hv
      rw [discover_resElev] at hv
      obtain ⟨p1, p2, p3⟩ := h0.resStable i v hv
      have hi : i ≠ nbrIdx P cx cy d := by
        intro heq
        rw [heq, hp] at p1
        cases p1
      rw [discover_processed, discover_elev, Function.update_noteq hi]
      exact ⟨p1, p2, p3⟩
    case ndProcessed =>
      intro i hi hnd
      rw [discover_processed]
      exact h0.ndProcessed i hi hnd
    case ndKeep =>
      intro i hnd hproc
      rw [discover_processed] at hproc
      obtain ⟨p1, p2, p3⟩ := h0.ndKeep i hnd hproc
      have hi : i ≠ nbrIdx P cx cy d := by
        intro heq
        rw [heq, hp] at hproc
        cases hproc
      rw [discover_flowdir, discover_elev, discover_enqCount,
        discFlow_other P _ _ _ _ _ hi, Function.update_noteq hi,
        Function.update_noteq hi]
      exact ⟨p1, p2, p3⟩
    case discInv =>
      intro e hed
      rw [discover_disc] at hed
      rcases List.mem_append.mp hed with hmem | hmem
      · obtain ⟨p1, p2, p3⟩ := h0.discInv e hmem
        have hec : e.c ≠ nbrIdx P cx cy d := by
          intro heq
          rw [heq, hp] at p1
          cases p1
        have hen : e.n ≠ nbrIdx P cx cy d := by
          intro heq
          rcases p2 with h | h
          · rw [heq, hq] at h
            cases h
          · rw [heq, hp] at h
            cases h
        refine ⟨by rw [discover_processed]; exact p1, ?_, ?_⟩
        · rcases p2 with h | h
          · exact Or.inl (by rw [discover_queued, Function.update_noteq hen]; exact h)
          · exact Or.inr (by rw [discover_processed]; exact h)
        · intro hpres
          rw [discover_elev, Function.update_noteq hec, Function.update_noteq hen]
          exact p3 hpres
      · have : e = ⟨cellIdx P cx cy, d, nbrIdx P cx cy d⟩ := by simpa using hmem
        subst this
        refine ⟨by rw [discover_processed]; exact hc, ?_, ?_⟩
        · exact Or.inl (by rw [discover_queued]; exact Function.update_same _ _ _)
        · intro hpres
          rw [discover_elev]
          dsimp only
          rw [Function.update_noteq hcn, Function.update_same, hz]
          exact spillOf_preserve_ge hpres z _ d
  · rw [discover_processed]
    exact hc
  · rw [discover_elev, Function.update_noteq hcn]
    exact hz

theorem pop_inv0 (P : Ctx) (e0 : ℕ → ℚ) (s : St) (cur : node) (rest : List node)
    (h0 : Inv0 P e0 s) (hperm : s.queue.Perm (cur :: rest)) :
    Inv0 P e0
      { s with queue := rest,
               processed := Function.update s.processed (cellIdx P cur.x cur.y) true,
               queued := Function.update s.queued (cellIdx P cur.x cur.y) false,
               resCount := Function.update s.resCount (cellIdx P cur.x cur.y)
                 (s.resCount (cellIdx P cur.x cur.y) + 1),
               resElev := Function.update s.resElev (cellIdx P cur.x cur.y)
                 (some (s.elev (cellIdx P cur.x cur.y))) } := by
  have hmemcur : cur ∈ s.queue := hperm.mem_iff.mpr (List.mem_cons_self _ _)
  have hqc : s.queued (cellIdx P cur.x cur.y) = true := queued_of_mem h0 hmemcur
  have hpc : s.processed (cellIdx P cur.x cur.y) = false := h0.qproc _ hqc
  obtain ⟨hinc, hspill⟩ := h0.qmem cur hmemcur
  have hcount : ∀ i, countCell P s.queue i =
      countCell P rest i + if cellIdx P cur.x cur.y = i then 1 else 0 := by
    intro i
    rw [countCell, hperm.countP_eq, List.countP_cons, ← countCell]
    by_cases h : cellIdx P cur.x cur.y = i
    · simp [h]
    · simp [h]
  have hrest0 : countCell P rest (cellIdx P cur.x cur.y) = 0 := by
    have h2 := hcount (cellIdx P cur.x cur.y)
    rw [h0.qcount, hqc] at h2
    simp at h2
    omega
  have hres0 : s.resCount (cellIdx P cur.x cur.y) = 0 := by
    by_contra hne
    have := h0.res_proc _ (Nat.pos_of_ne_zero hne)
    rw [this] at hpc
    cases hpc
  constructor
  case mono => exact h0.mono
  case qcount =>
    intro i
    dsimp only
    by_cases hi : i = cellIdx P cur.x cur.y
    · subst hi
      rw [Function.update_same]
      simpa using hrest0
    · rw [Function.update_noteq hi]
      have h3 := hcount i
      rw [if_neg fun h2 => hi h2.symm, Nat.add_zero] at h3
      rw [← h3, h0.qcount]
  case qmem =>
    intro nd hnd
    exact h0.qmem nd (hperm.mem_iff.mpr (List.mem_cons_of_mem _ hnd))
  case qproc =>
    intro i hqi
    dsimp only at hqi
    dsimp only
    by_cases hi : i = cellIdx P cur.x cur.y
    · subst hi
      rw [Function.update_same] at hqi
      cases hqi
    · rw [Function.update_noteq hi] at hqi
      rw [Function.update_noteq hi]
      exact h0.qproc i hqi
  case enq_le => exact h0.enq_le
  case enq_stat =>
    intro i hpos
    dsimp only
    by_cases hi : i = cellIdx P cur.x cur.y
    · subst hi
      exact Or.inr (Function.update_same _ _ _)
    · rw [Function.update_noteq hi, Function.update_noteq hi]
      exact h0.enq_stat i hpos
  case res_le =>
    intro i
    dsimp only
    by_cases hi : i = cellIdx P cur.x cur.y
    · subst hi
      rw [Function.update_same, hres0]
    · rw [Function.update_noteq hi]
      exact h0.res_le i
  case res_proc =>
    intro i hpos
    dsimp only at hpos
    dsimp only
    by_cases hi : i = cellIdx P cur.x cur.y
    · subst hi
      rw [Function.update_same]
    · rw [Function.update_noteq hi] at hpos
      rw [Function.update_noteq hi]
      exact h0.res_proc i hpos
  case resStable =>
    intro i v hv
    dsimp only at hv
    dsimp only
    by_cases hi : i = cellIdx P cur.x cur.y
    · subst hi
      rw [Function.update_same] at hv
      obtain rfl : s.elev (cellIdx P cur.x cur.y) = v := by simpa using hv
      exact ⟨Function.update_same _ _ _, rfl, h0.mono _⟩
    · rw [Function.update_noteq hi] at hv
      obtain ⟨p1, p2, p3⟩ := h0.resStable i v hv
      rw [Function.update_noteq hi]
      exact ⟨p1, p2, p3⟩
  case ndProcessed =>
    intro i hi hnd
    dsimp only
    by_cases hic : i = cellIdx P cur.x cur.y
    · subst hic
      exact Function.update_same _ _ _
    · rw [Function.update_noteq hic]
      exact h0.ndProcessed i hi hnd
  case ndKeep =>
    intro i hnd hproc
    dsimp only at hproc
    dsimp only
    by_cases hic : i = cellIdx P cur.x cur.y
    · exfalso
      subst hic
      have := h0.ndProcessed _ (cellIdx_lt hinc) hnd
      rw [this] at hpc
      cases hpc
    · rw [Function.update_noteq hic] at hproc
      exact h0.ndKeep i hnd hproc
  case discInv =>
    intro e hed
    dsimp only at hed
    dsimp only
    obtain ⟨p1, p2, p3⟩ := h0.discInv e hed
    refine ⟨?_, ?_, p3⟩
    · by_cases hic : e.c = cellIdx P cur.x cur.y
      · rw [hic]
        exact Function.update_same _ _ _
      · rw [Function.update_noteq hic]
        exact p1
    · by_cases hin2 : e.n = cellIdx P cur.x cur.y
      · rw [hin2]
        exact Or.inr (Function.update_same _ _ _)
      · rcases p2 with h | h
        · refine Or.inl ?_
          show Function.update s.queued (cellIdx P cur.x cur.y) false e.n = true
          rw [Function.update_noteq hin2]
          exact h
        · refine Or.inr ?_
          show Function.update s.processed (cellIdx P cur.x cur.y) true e.n = true
          rw [Function.update_noteq hin2]
          exact h

theorem encode_inv0 (P : Ctx) (e0 : ℕ → ℚ) (s : St) (c : ℕ) (code : ℕ)
    (h0 : Inv0 P e0 s) (hnd : e0 c ≠ P.nodata) :
    Inv0 P e0 { s with flowdir := Function.update s.flowdir c code } := by
  constructor
  case mono => exact h0.mono
  case qcount => exact h0.qcount
  case qmem => exact h0.qmem
  case qproc => exact h0.qproc
  case enq_le => exact h0.enq_le
  case enq_stat => exact h0.enq_stat
  case res_le => exact h0.res_le
  case res_proc => exact h0.res_proc
  case resStable => exact h0.resStable
  case ndProcessed => exact h0.ndProcessed
  case ndKeep =>
    intro i hind hproc
    dsimp only at hproc
    dsimp only
    obtain ⟨p1, p2, p3⟩ := h0.ndKeep i hind hproc
    have hic : i ≠ c := fun h => hnd (h ▸ hind)
    rw [Function.update_noteq hic]
    exact ⟨p1, p2, p3⟩
  case discInv => exact h0.discInv

theorem qp_pop (s : St) (c : ℕ) {i : ℕ} (h : qp s i) :
    Function.update s.queued c false i = true ∨
      Function.update s.processed c true i = true := by
  by_cases hic : i = c
  · subst hic
    exact Or.inr (Function.update_same _ _ _)
  · rcases h with h | h
    · refine Or.inl ?_
      rw [Function.update_noteq hic]
      exact h
    · refine Or.inr ?_
      rw [Function.update_noteq hic]
      exact h

theorem drainStep_inv (P : Ctx) (e0 : ℕ → ℚ) {s : St} (h : Inv P e0 s) :
    Inv P e0 (drainStep P s) := by
  obtain ⟨h0, hN⟩ := h
  cases hpop : popMin s.queue with
  | none =>
    unfold drainStep
    rw [hpop]
    exact ⟨h0, hN⟩
  | some pr =>
    obtain ⟨cur, rest⟩ := pr
    have hperm := popMin_perm hpop
    have hmemcur : cur ∈ s.queue := hperm.mem_iff.mpr (List.mem_cons_self _ _)
    obtain ⟨hinc, hspill⟩ := h0.qmem cur hmemcur
    have hqc : s.queued (cellIdx P cur.x cur.y) = true := queued_of_mem h0 hmemcur
    have hpc : s.processed (cellIdx P cur.x cur.y) = false := h0.qproc _ hqc
    have hndc : e0 (cellIdx P cur.x cur.y) ≠ P.nodata := by
      intro hnd2
      have := h0.ndProcessed _ (cellIdx_lt hinc) hnd2
      rw [this] at hpc
      cases hpc
    have hstep := foldl_pres
      (processNeighbour P cur.x cur.y cur.spill)
      (fun st => Inv0 P e0 st ∧ st.processed (cellIdx P cur.x cur.y) = true ∧
        st.elev (cellIdx P cur.x cur.y) = cur.spill)
      (fun st d hst => pn_stepinv P e0 cur.x cur.y cur.spill st d hst.1 hst.2.1 hst.2.2)
      (List.finRange 8)
      { s with queue := rest,
               processed := Function.update s.processed (cellIdx P cur.x cur.y) true,
               queued := Function.update s.queued (cellIdx P cur.x cur.y) false,
               resCount := Function.update s.resCount (cellIdx P cur.x cur.y)
                 (s.resCount (cellIdx P cur.x cur.y) + 1),
               resElev := Function.update s.resElev (cellIdx P cur.x cur.y)
                 (some (s.elev (cellIdx P cur.x cur.y))) }
      ⟨pop_inv0 P e0 s cur rest h0 hperm, Function.update_same _ _ _, hspill.symm⟩
    have hN2 : InvN P e0 ((List.finRange 8).foldl
        (processNeighbour P cur.x cur.y cur.spill)
        { s with queue := rest,
                 processed := Function.update s.processed (cellIdx P cur.x cur.y) true,
                 queued := Function.update s.queued (cellIdx P cur.x cur.y) false,
                 resCount := Function.update s.resCount (cellIdx P cur.x cur.y)
                   (s.resCount (cellIdx P cur.x cur.y) + 1),
                 resElev := Function.update s.resElev (cellIdx P cur.x cur.y)
                   (some (s.elev (cellIdx P cur.x cur.y))) }) := by
      intro x y hxyin hproc2
      have hproc_fold : ((List.finRange 8).foldl
          (processNeighbour P cur.x cur.y cur.spill)
          { s with queue := rest,
                   processed := Function.update s.processed (cellIdx P cur.x cur.y) true,
                   queued := Function.update s.queued (cellIdx P cur.x cur.y) false,
                   resCount := Function.update s.resCount (cellIdx P cur.x cur.y)
                     (s.resCount (cellIdx P cur.x cur.y) + 1),
                   resElev := Function.update s.resElev (cellIdx P cur.x cur.y)
                     (some (s.elev (cellIdx P cur.x cur.y))) }).processed =
          Function.update s.processed (cellIdx P cur.x cur.y) true := by
        refine foldl_pres (processNeighbour P cur.x cur.y cur.spill)
          (fun st => st.processed =
            Function.update s.processed (cellIdx P cur.x cur.y) true) ?_ _ _ rfl
        intro st d hst
        rw [pn_processed, hst]
      by_cases hold : s.processed (cellIdx P x y) = true
      · rcases hN x y hxyin hold with hnd2 | hall
        · exact Or.inl hnd2
        · right
          intro d hd
          have hq0 := hall d hd
          have hq1 := qp_pop s (cellIdx P cur.x cur.y) hq0
          exact foldl_pres (processNeighbour P cur.x cur.y cur.spill)
            (fun st => qp st
              (cellIdx P (getNeighbourX x d) (getNeighbourY y d)))
            (fun st d2 h2 => pn_qp P cur.x cur.y cur.spill st d2 h2) _ _ hq1
      · rw [hproc_fold] at hproc2
        have hceq : cellIdx P x y = cellIdx P cur.x cur.y := by
          by_contra hne2
          rw [Function.update_noteq hne2] at hproc2
          exact hold hproc2
        obtain ⟨hx, hy⟩ := cellIdx_inj hxyin hinc hceq
        subst hx
        subst hy
        right
        intro d hd
        exact foldl_establish (processNeighbour P cur.x cur.y cur.spill)
          (fun d2 st =>
            isInBounds P (getNeighbourX cur.x d2) (getNeighbourY cur.y d2) = true →
              qp st (nbrIdx P cur.x cur.y d2))
          (fun st a b hb hbin => pn_qp P cur.x cur.y cur.spill st a (hb hbin))
          (fun st a hain => pn_qp_self P cur.x cur.y cur.spill st a hain)
          (List.finRange 8) _ d (List.mem_finRange d) hd
    unfold drainStep
    rw [hpop]
    dsimp only
    by_cases henc : ((List.finRange 8).foldl
        (processNeighbour P cur.x cur.y cur.spill)
        { s with queue := rest,
                 processed := Function.update s.processed (cellIdx P cur.x cur.y) true,
                 queued := Function.update s.queued (cellIdx P cur.x cur.y) false,
                 resCount := Function.update s.resCount (cellIdx P cur.x cur.y)
                   (s.resCount (cellIdx P cur.x cur.y) + 1),
                 resElev := Function.update s.resElev (cellIdx P cur.x cur.y)
                   (some (s.elev (cellIdx P cur.x cur.y))) }).flowdir
        (cellIdx P cur.x cur.y) = 0
    · rw [if_pos henc]
      exact ⟨encode_inv0 P e0 _ _ _ hstep.1 hndc, hN2⟩
    · rw [if_neg henc]
      exact ⟨hstep.1, hN2⟩

theorem drain_inv (P : Ctx) (e0 : ℕ → ℚ) :
    ∀ (fuel : ℕ) {s : St}, Inv P e0 s → Inv P e0 (drain P fuel s)
  | 0, _, h => h
  | Nat.succ k, s, h => by
    show Inv P e0 (if s.queue = [] then s else drain P k (drainStep P s))
    split
    · exact h
    · exact drain_inv P e0 k (drainStep_inv P e0 h)

theorem run_inv (P : Ctx) (e0 : ℕ → ℚ) (fuel : ℕ) : Inv P e0 (run P e0 fuel) :=
  drain_inv P e0 fuel (seed_inv P e0)

theorem drainStep_qp (P : Ctx) {s : St} {i : ℕ} (h : qp s i) : qp (drainStep P s) i := by
  cases hpop : popMin s.queue with
  | none =>
    unfold drainStep
    rw [hpop]
    exact h
  | some pr =>
    obtain ⟨cur, rest⟩ := pr
    have hq1 := qp_pop s (cellIdx P cur.x cur.y) h
    have hq2 := foldl_pres (processNeighbour P cur.x cur.y cur.spill) (fun st => qp st i)
      (fun st d2 h2 => pn_qp P cur.x cur.y cur.spill st d2 h2) (List.finRange 8)
      { s with queue := rest,
               processed := Function.update s.processed (cellIdx P cur.x cur.y) true,
               queued := Function.update s.queued (cellIdx P cur.x cur.y) false,
               resCount := Function.update s.resCount (cellIdx P cur.x cur.y)
                 (s.resCount (cellIdx P cur.x cur.y) + 1),
               resElev := Function.update s.resElev (cellIdx P cur.x cur.y)
                 (some (s.elev (cellIdx P cur.x cur.y))) } hq1
    unfold drainStep
    rw [hpop]
    dsimp only
    split
    · exact hq2
    · exact hq2

theorem drain_qp (P : Ctx) :
    ∀ (fuel : ℕ) {s : St} {i : ℕ}, qp s i → qp (drain P fuel s) i
  | 0, _, _, h => h
  | Nat.succ k, s, i, h => by
    show qp (if s.queue = [] then s else drain P k (drainStep P s)) i
    split
    · exact h
    · exact drain_qp P k (drainStep_qp P h)

theorem countP_point_drop :
    ∀ {l : List ℕ}, l.Nodup → ∀ {n : ℕ}, n ∈ l → ∀ {p q : ℕ → Bool}, p n = true →
      q n = false → (∀ i, i ≠ n → q i = p i) → l.countP q + 1 = l.countP p := by
  intro l
  induction l with
  | nil => intro _ n hn; cases hn
  | cons a t ih =>
    intro hl n hn p q hpn hqn hother
    rw [List.countP_cons, List.countP_cons]
    rcases List.mem_cons.mp hn with rfl | hmem
    · have hnt : n ∉ t := (List.nodup_cons.mp hl).1
      have heq : t.countP q = t.countP p := List.countP_congr fun i hi => by
        rw [hother i fun h2 => hnt (h2 ▸ hi)]
      rw [heq, hpn, hqn]
      simp
    · have ha : a ≠ n := fun h2 => (List.nodup_cons.mp hl).1 (h2 ▸ hmem)
      have := ih (List.nodup_cons.mp hl).2 hmem hpn hqn hother
      rw [hother a ha]
      omega

theorem pn_mu (P : Ctx) (cx cy : ℤ) (z : ℚ) (s : St) (d : Fin 8) :
    mu P (processNeighbour P cx cy z s d) ≤ mu P s := by
  rcases pn_spec P cx cy z s d with he | ⟨hin, hq, hp, he⟩
  · rw [he]
  rw [he]
  have hlen : (discover P cx cy z s d).queue.length = s.queue.length + 1 := by
    rw [discover_queue]
    simp
  have hfree : freeCount P (discover P cx cy z s d) + 1 = freeCount P s := by
    unfold freeCount
    refine countP_point_drop (List.nodup_range _)
      (List.mem_range.mpr
        (show nbrIdx P cx cy d < P.xSize * P.ySize from cellIdx_lt hin)) ?_ ?_ ?_
    · rw [hq, hp]
      rfl
    · rw [discover_queued, discover_processed, Function.update_same]
      rfl
    · intro i hi
      rw [discover_queued, discover_processed, Function.update_noteq hi]
  unfold mu
  omega

theorem drainStep_mu (P : Ctx) {s : St} (hne : s.queue ≠ []) :
    mu P (drainStep P s) < mu P s := by
  cases hpop : popMin s.queue with
  | none => exact absurd (popMin_none hpop) hne
  | some pr =>
    obtain ⟨cur, rest⟩ := pr
    have hperm := popMin_perm hpop
    have hlen : s.queue.length = rest.length + 1 := by
      rw [hperm.length_eq]
      rfl
    have hfree1 : freeCount P
        { s with queue := rest,
                 processed := Function.update s.processed (cellIdx P cur.x cur.y) true,
                 queued := Function.update s.queued (cellIdx P cur.x cur.y) false,
                 resCount := Function.update s.resCount (cellIdx P cur.x cur.y)
                   (s.resCount (cellIdx P cur.x cur.y) + 1),
                 resElev := Function.update s.resElev (cellIdx P cur.x cur.y)
                   (some (s.elev (cellIdx P cur.x cur.y))) } ≤ freeCount P s := by
      unfold freeCount
      refine List.countP_mono_left ?_
      intro i _ hpi
      dsimp only at hpi
      by_cases hic : i = cellIdx P cur.x cur.y
      · rw [hic, Function.update_same] at hpi
        simp at hpi
      · rw [Function.update_noteq hic, Function.update_noteq hic] at hpi
        exact hpi
    have hmu1 : mu P
        { s with queue := rest,
                 processed := Function.update s.processed (cellIdx P cur.x cur.y) true,
                 queued := Function.update s.queued (cellIdx P cur.x cur.y) false,
                 resCount := Function.update s.resCount (cellIdx P cur.x cur.y)
                   (s.resCount (cellIdx P cur.x cur.y) + 1),
                 resElev := Function.update s.resElev (cellIdx P cur.x cur.y)
                   (some (s.elev (cellIdx P cur.x cur.y))) } < mu P s := by
      unfold mu
      dsimp only
      omega
    have hmu2 := foldl_pres (processNeighbour P cur.x cur.y cur.spill)
      (fun st => mu P st < mu P s)
      (fun st d2 h2 => lt_of_le_of_lt (pn_mu P cur.x cur.y cur.spill st d2) h2)
      (List.finRange 8) _ hmu1
    unfold drainStep
    rw [hpop]
    dsimp only
    split
    · exact hmu2
    · exact hmu2

theorem drain_terminates (P : Ctx) :
    ∀ (fuel : ℕ) (s : St), mu P s ≤ fuel → (drain P fuel s).queue = [] := by
  intro fuel
  induction fuel with
  | zero =>
    intro s h
    unfold mu at h
    have : s.queue.length = 0 := by omega
    exact List.length_eq_zero.mp this
  | succ k ih =>
    intro s h
    show (if s.queue = [] then s else drain P k (drainStep P s)).queue = []
    split
    · assumption
    · refine ih (drainStep P s) ?_
      have := drainStep_mu P (by assumption)
      omega

theorem seedCell_queue_len (P : Ctx) (x y : ℕ) (s : St) :
    (seedCell P x y s).queue.length ≤ s.queue.length + 1 := by
  rcases seedCell_spec P x y s with ⟨_, h⟩ | ⟨_, _, h⟩ | ⟨_, _, h⟩ <;> rw [h] <;> simp

theorem seedFold_queue_len (P : Ctx) :
    ∀ (l : List (ℕ × ℕ)) (s : St),
      (l.foldl (fun s2 xy => seedCell P xy.1 xy.2 s2) s).queue.length ≤
        s.queue.length + l.length
  | [], _ => le_rfl
  | p :: l, s => by
    rw [List.foldl_cons]
    calc (l.foldl (fun s2 xy => seedCell P xy.1 xy.2 s2)
          (seedCell P p.1 p.2 s)).queue.length ≤
        (seedCell P p.1 p.2 s).queue.length + l.length := seedFold_queue_len P l _
      _ ≤ s.queue.length + 1 + l.length :=
        Nat.add_le_add_right (seedCell_queue_len P p.1 p.2 s) _
      _ = s.queue.length + (p :: l).length := by
        simp
        omega

theorem seedPairs_length (P : Ctx) : (seedPairs P).length = P.xSize * P.ySize := by
  unfold seedPairs
  rw [List.length_flatMap]
  have : (List.map (List.length ∘ fun x => (List.range P.ySize).map fun y => (x, y))
      (List.range P.xSize)) = List.map (fun _ => P.ySize) (List.range P.xSize) := by
    refine List.map_congr_left ?_
    intro a _
    simp [Function.comp]
  rw [this, List.map_const', List.sum_replicate, List.length_range]
  simp [Nat.mul_comm]

theorem mu_seed_le (P : Ctx) (e0 : ℕ → ℚ) :
    mu P (seed P e0) ≤ 3 * (P.xSize * P.ySize) := by
  have h1 : freeCount P (seed P e0) ≤ P.xSize * P.ySize := by
    unfold freeCount
    calc (List.range (P.xSize * P.ySize)).countP _ ≤
        (List.range (P.xSize * P.ySize)).length := List.countP_le_length _
      _ = P.xSize * P.ySize := List.length_range _
  have h2 : (seed P e0).queue.length ≤ P.xSize * P.ySize := by
    have := seedFold_queue_len P (seedPairs P) (seedInit e0)
    rw [seedPairs_length] at this
    simpa [seed, seedInit] using this
  unfold mu
  omega

theorem queued_false_of_empty {P : Ctx} {e0 : ℕ → ℚ} {s : St} (h0 : Inv0 P e0 s)
    (hq : s.queue = []) (i : ℕ) : s.queued i = false := by
  cases hval : s.queued i
  · rfl
  · exfalso
    have := h0.qcount i
    rw [hq, hval, if_pos rfl] at this
    simp [countCell] at this

theorem ngh_val :
    ngh 0 = (1, 0) ∧ ngh 2 = (0, -1) ∧ ngh 4 = (-1, 0) ∧ ngh 6 = (0, 1) := by
  refine ⟨?_, ?_, ?_, ?_⟩ <;> rfl

theorem edgeTest_true_of_dir (P : Ctx) (e0 : ℕ → ℚ) (x y : ℤ) (d : Fin 8)
    (h : isInBounds P (getNeighbourX x d) (getNeighbourY y d) = false) :
    edgeTest P e0 x y = true := by
  unfold edgeTest
  rw [List.any_eq_true]
  exact ⟨d, List.mem_finRange d, by rw [h]; rfl⟩

theorem onBoundary_edgeTest (P : Ctx) (e0 : ℕ → ℚ) (x y : ℕ)
    (_hx : x < P.xSize) (_hy : y < P.ySize) (hb : onBoundary P x y) :
    edgeTest P e0 x y = true := by
  rcases hb with h | h | h | h
  · refine edgeTest_true_of_dir P e0 x y 4 ?_
    rw [Bool.eq_false_iff]
    intro hc
    obtain ⟨h1, _, _, _⟩ := isInBounds_iff.mp hc
    have hval : getNeighbourX (x : ℤ) 4 = (x : ℤ) + -1 := rfl
    rw [hval] at h1
    omega
  · refine edgeTest_true_of_dir P e0 x y 0 ?_
    rw [Bool.eq_false_iff]
    intro hc
    obtain ⟨_, h2, _, _⟩ := isInBounds_iff.mp hc
    have hval : getNeighbourX (x : ℤ) 0 = (x : ℤ) + 1 := rfl
    rw [hval] at h2
    omega
  · refine edgeTest_true_of_dir P e0 x y 2 ?_
    rw [Bool.eq_false_iff]
    intro hc
    obtain ⟨_, _, h3, _⟩ := isInBounds_iff.mp hc
    have hval : getNeighbourY (y : ℤ) 2 = (y : ℤ) + -1 := rfl
    rw [hval] at h3
    omega
  · refine edgeTest_true_of_dir P e0 x y 6 ?_
    rw [Bool.eq_false_iff]
    intro hc
    obtain ⟨_, _, _, h4⟩ := isInBounds_iff.mp hc
    have hval : getNeighbourY (y : ℤ) 6 = (y : ℤ) + 1 := rfl
    rw [hval] at h4
    omega

theorem edgeTest_false_all (P : Ctx) (e0 : ℕ → ℚ) (x y : ℤ)
    (h : edgeTest P e0 x y = false) (d : Fin 8) :
    isInBounds P (getNeighbourX x d) (getNeighbourY y d) = true ∧
      e0 (nbrIdx P x y d) ≠ P.nodata := by
  unfold edgeTest at h
  rw [List.any_eq_false] at h
  have h2 := h d (List.mem_finRange d)
  simp only [Bool.or_eq_true, not_or, Bool.not_eq_true, Bool.not_eq_true',
    decide_eq_true_eq] at h2
  obtain ⟨ha, hb⟩ := h2
  refine ⟨?_, hb⟩
  cases hval : isInBounds P (getNeighbourX x d) (getNeighbourY y d)
  · exact absurd hval ha
  · rfl

theorem edge_seed_processed (P : Ctx) (e0 : ℕ → ℚ) (fuel : ℕ)
    (hempty : (run P e0 fuel).queue = []) (x y : ℕ)
    (hx : x < P.xSize) (hy : y < P.ySize)
    (hnd : e0 (cellIdx P x y) ≠ P.nodata) (het : edgeTest P e0 x y = true) :
    (run P e0 fuel).processed (cellIdx P x y) = true := by
  obtain ⟨q1, _, _⟩ := (seed_outcome P e0 x y hx hy).2.1 hnd het
  have hqp : qp (run P e0 fuel) (cellIdx P x y) :=
    drain_qp P fuel (Or.inl q1)
  rcases hqp with h | h
  · rw [queued_false_of_empty (run_inv P e0 fuel).1 hempty] at h
    cases h
  · exact h

theorem completion (P : Ctx) (e0 : ℕ → ℚ) (fuel : ℕ)
    (hempty : (run P e0 fuel).queue = []) :
    ∀ x y : ℕ, x < P.xSize → y < P.ySize → e0 (cellIdx P x y) ≠ P.nodata →
      (run P e0 fuel).processed (cellIdx P x y) = true := by
  intro x
  induction x using Nat.strong_induction_on with
  | _ x ih =>
    intro y hx hy hnd
    by_cases het : edgeTest P e0 x y = true
    · exact edge_seed_processed P e0 fuel hempty x y hx hy hnd het
    · have hef : edgeTest P e0 (x : ℤ) (y : ℤ) = false := by
        cases hval : edgeTest P e0 (x : ℤ) (y : ℤ)
        · rfl
        · exact absurd hval het
      have hwest := edgeTest_false_all P e0 x y hef 4
      have hgx4 : getNeighbourX (x : ℤ) 4 = (x : ℤ) + -1 := rfl
      have hgy4 : getNeighbourY (y : ℤ) 4 = (y : ℤ) + 0 := rfl
      have hx1 : 1 ≤ x := by
        obtain ⟨hb, _⟩ := hwest
        obtain ⟨h1, _, _, _⟩ := isInBounds_iff.mp hb
        rw [hgx4] at h1
        omega
      have hcast : ((x - 1 : ℕ) : ℤ) = getNeighbourX (x : ℤ) 4 := by
        rw [hgx4]
        omega
      have hcasty : ((y : ℕ) : ℤ) = getNeighbourY (y : ℤ) 4 := by
        rw [hgy4]
        omega
      have hidx : cellIdx P ((x - 1 : ℕ) : ℤ) ((y : ℕ) : ℤ) = nbrIdx P (x : ℤ) (y : ℤ) 4 := by
        unfold nbrIdx
        rw [← hcast, ← hcasty]
      have hndw : e0 (cellIdx P ((x - 1 : ℕ) : ℤ) ((y : ℕ) : ℤ)) ≠ P.nodata := by
        rw [hidx]
        exact hwest.2
      have hprocw : (run P e0 fuel).processed (cellIdx P ((x - 1 : ℕ) : ℤ) ((y : ℕ) : ℤ)) = true :=
        ih (x - 1) (by omega) y (by omega) hy hndw
      have hinw : isInBounds P ((x - 1 : ℕ) : ℤ) ((y : ℕ) : ℤ) = true := by
        rw [hcast, hcasty]
        exact hwest.1
      rcases (run_inv P e0 fuel).2 ((x - 1 : ℕ) : ℤ) ((y : ℕ) : ℤ) hinw hprocw with hc | hall
      · exact absurd hc hndw
      · have hgx0 : getNeighbourX ((x - 1 : ℕ) : ℤ) 0 = ((x - 1 : ℕ) : ℤ) + 1 := rfl
        have hgy0 : getNeighbourY ((y : ℕ) : ℤ) 0 = ((y : ℕ) : ℤ) + 0 := rfl
        have hbx : getNeighbourX ((x - 1 : ℕ) : ℤ) 0 = (x : ℤ) := by
          rw [hgx0]
          omega
        have hby : getNeighbourY ((y : ℕ) : ℤ) 0 = (y : ℤ) := by
          rw [hgy0]
          omega
        have hin0 : isInBounds P (getNeighbourX ((x - 1 : ℕ) : ℤ) 0)
            (getNeighbourY ((y : ℕ) : ℤ) 0) = true := by
          rw [hbx, hby]
          exact isInBounds_natCast P hx hy
        have hqp := hall 0 hin0
        have hidx0 : cellIdx P (getNeighbourX ((x - 1 : ℕ) : ℤ) 0)
            (getNeighbourY ((y : ℕ) : ℤ) 0) = cellIdx P (x : ℤ) (y : ℤ) := by
          rw [hbx, hby]
        rw [hidx0] at hqp
        rcases hqp with h | h
        · rw [queued_false_of_empty (run_inv P e0 fuel).1 hempty] at h
          cases h
        · exact h

theorem pn_discover_eq (P : Ctx) (cx cy : ℤ) (z : ℚ) (s : St) (d : Fin 8)
    (hin : isInBounds P (getNeighbourX cx d) (getNeighbourY cy d) = true)
    (hq : s.queued (nbrIdx P cx cy d) = false)
    (hp : s.processed (nbrIdx P cx cy d) = false) :
    processNeighbour P cx cy z s d = discover P cx cy z s d := by
  have hq2 : s.queued (cellIdx P (getNeighbourX cx d) (getNeighbourY cy d)) = false := hq
  have hp2 : s.processed (cellIdx P (getNeighbourX cx d) (getNeighbourY cy d)) = false := hp
  unfold processNeighbour
  rw [if_pos (by rw [hin, hq2]; rfl), if_neg (by rw [hp2]; exact Bool.false_ne_true)]

/-- C1: monotonic fill.  For every cell resolved by the traversal, the value
recorded in the working elevation grid at resolution (ghost field `resElev`)
is at least the cell's raw input elevation, for every input grid and in both
plain and slope-preserving modes. -/
theorem c1_monotonic_fill (P : Ctx) (elev0 : ℕ → ℚ) (fuel : ℕ) (i : ℕ) (v : ℚ)
    (h : (run P elev0 fuel).resElev i = some v) : elev0 i ≤ v :=
  ((run_inv P elev0 fuel).1.resStable i v h).2.2

/-- Witness for C1 on a concrete 2-by-1 plain-mode run. -/
theorem c1_witness : (run c1P c1G 6).resElev 0 = some 2 ∧ c1G 0 ≤ 2 :=
  ⟨by with_unfolding_all decide,
   c1_monotonic_fill c1P c1G 6 0 2 (by with_unfolding_all decide)⟩

/-- C2: plain-mode spill policy.  With slope preservation disabled, a
discovery via direction `d` writes `raw` when `raw > z` and `z` otherwise,
and whenever `raw <= z` it immediately forces the neighbour's flow code to
`ldd[(d+4)%8]`, the direction whose offset leads from the neighbour back to
the discovering cell. -/
theorem c2_plain_spill (P : Ctx) (hpres : P.preserve = false) (cx cy : ℤ) (z : ℚ)
    (s : St) (d : Fin 8)
    (hin : isInBounds P (getNeighbourX cx d) (getNeighbourY cy d) = true)
    (hq : s.queued (nbrIdx P cx cy d) = false)
    (hp : s.processed (nbrIdx P cx cy d) = false) :
    (processNeighbour P cx cy z s d).elev (nbrIdx P cx cy d) =
      (if z < s.elev (nbrIdx P cx cy d) then s.elev (nbrIdx P cx cy d) else z) ∧
    (s.elev (nbrIdx P cx cy d) ≤ z →
      (processNeighbour P cx cy z s d).flowdir (nbrIdx P cx cy d) =
        ldd (oppDir d).castSucc ∧
      getNeighbourX (getNeighbourX cx d) (oppDir d) = cx ∧
      getNeighbourY (getNeighbourY cy d) (oppDir d) = cy) := by
  rw [pn_discover_eq P cx cy z s d hin hq hp, discover_elev, discover_flowdir]
  constructor
  · rw [Function.update_same, spillOf_plain hpres]
    by_cases hle : s.elev (nbrIdx P cx cy d) ≤ z
    · rw [if_pos hle, if_neg (not_lt.mpr hle)]
    · rw [if_neg hle, if_pos (not_le.mp hle)]
  · intro hle
    refine ⟨?_, ?_, ?_⟩
    · rw [discFlow_plain_le hpres hle, Function.update_same]
    · unfold getNeighbourX
      rw [(ngh_oppDir d).1]
      ring
    · unfold getNeighbourY
      rw [(ngh_oppDir d).2]
      ring

/-- Witness for C2: a flat raster at 5, discovering cell at (0,0) with spill
7 reaching its east neighbour. -/
theorem c2_witness :
    (processNeighbour c2P 0 0 7 c2S 0).elev (nbrIdx c2P 0 0 0) =
      (if (7 : ℚ) < c2S.elev (nbrIdx c2P 0 0 0) then c2S.elev (nbrIdx c2P 0 0 0)
        else 7) ∧
    (processNeighbour c2P 0 0 7 c2S 0).flowdir (nbrIdx c2P 0 0 0) =
      ldd (oppDir 0).castSucc := by
  have h := c2_plain_spill c2P rfl 0 0 7 c2S 0 (by decide) rfl rfl
  exact ⟨h.1, (h.2 (by with_unfolding_all decide)).1⟩

/-- C3: slope-preserving spill policy.  With preservation enabled the
discovery writes `max(raw, z + mindiff[d])` where `mindiff[d]` is the
precomputed `tan(theta) * length[d]`, no flow direction is forced at
discovery, and consequently every recorded discovery edge `(c, d, n)` of a
run satisfies `filled(n) >= filled(c) + mindiff[d]` in the final grid. -/
theorem c3_slope_preserving (P : Ctx) (hpres : P.preserve = true) :
    (∀ (cx cy : ℤ) (z : ℚ) (s : St) (d : Fin 8),
      isInBounds P (getNeighbourX cx d) (getNeighbourY cy d) = true →
      s.queued (nbrIdx P cx cy d) = false →
      s.processed (nbrIdx P cx cy d) = false →
      (processNeighbour P cx cy z s d).elev (nbrIdx P cx cy d) =
        max (s.elev (nbrIdx P cx cy d)) (z + mindiff P d) ∧
      ∀ j, (processNeighbour P cx cy z s d).flowdir j = s.flowdir j) ∧
    ∀ (elev0 : ℕ → ℚ) (fuel : ℕ) (e : DiscEdge), e ∈ (run P elev0 fuel).disc →
      (run P elev0 fuel).elev e.c + mindiff P e.d ≤ (run P elev0 fuel).elev e.n := by
  constructor
  · intro cx cy z s d hin hq hp
    rw [pn_discover_eq P cx cy z s d hin hq hp, discover_elev, discover_flowdir]
    constructor
    · rw [Function.update_same, spillOf_preserve hpres]
    · intro j
      rw [discFlow_preserve hpres]
  · intro elev0 fuel e he
    exact ((run_inv P elev0 fuel).1.discInv e he).2.2 hpres

/-- Witness for C3: the 3-by-3 pit raster in preserve mode; the centre is
discovered from the corner seed via the diagonal direction 7, and the final
grid satisfies the slope lower bound on that edge. -/
theorem c3_witness :
    (processNeighbour c3P 0 0 1 (seedInit c3G) 7).elev (nbrIdx c3P 0 0 7) =
      max ((seedInit c3G).elev (nbrIdx c3P 0 0 7)) (1 + mindiff c3P 7) ∧
    (processNeighbour c3P 0 0 1 (seedInit c3G) 7).flowdir 4 =
      (seedInit c3G).flowdir 4 ∧
    (run c3P c3G 27).elev (DiscEdge.c ⟨0, 7, 4⟩) + mindiff c3P (DiscEdge.d ⟨0, 7, 4⟩) ≤
      (run c3P c3G 27).elev (DiscEdge.n ⟨0, 7, 4⟩) := by
  have h1 := (c3_slope_preserving c3P rfl).1 0 0 1 (seedInit c3G) 7 (by decide) rfl rfl
  have h2 := (c3_slope_preserving c3P rfl).2 c3G 27 ⟨0, 7, 4⟩
    (by with_unfolding_all decide)
  exact ⟨h1.1, h1.2 4, h2⟩

/-- C4 evidence (code bug): on the concrete 3-by-3 raster `c4G` the centre
cell resolves with spill 3/2 and a still-unset flow code, and the code
(which truncates the spill to the int 1 at the `getFlowDir` call) assigns
LDD code 3, while the scan described by the claim, performed at the actual
spill elevation 3/2, selects LDD code 4. -/
theorem c4_truncation_eval :
    (run c4P c4G 27).processed 4 = true ∧
    (run c4P c4G 27).resElev 4 = some (3 / 2) ∧
    cIntOfRat (3 / 2) = 1 ∧
    (run c4P c4G 27).flowdir 4 = 3 ∧
    ldd (getFlowDirClaim c4P (run c4P c4G 27).elev (run c4P c4G 27).processed
      1 1 (3 / 2)) = 4 := by
  refine ⟨?_, ?_, ?_, ?_, ?_⟩ <;> with_unfolding_all decide

/-- C5: cell-status state machine.  Along any run (any number `k` of
draining iterations after seeding): every cell is enqueued at most once and
resolved at most once (ghost counters), the queue never holds two entries
for the same cell, and a resolved cell's working elevation equals the value
it had at resolution (it is never written again). -/
theorem c5_state_machine (P : Ctx) (elev0 : ℕ → ℚ) (k : ℕ) :
    (∀ i, (drain P k (seed P elev0)).enqCount i ≤ 1) ∧
    (∀ i, (drain P k (seed P elev0)).resCount i ≤ 1) ∧
    (∀ i, countCell P (drain P k (seed P elev0)).queue i ≤ 1) ∧
    (∀ i v, (drain P k (seed P elev0)).resElev i = some v →
      (drain P k (seed P elev0)).elev i = v) := by
  have h := drain_inv P elev0 k (seed_inv P elev0)
  refine ⟨h.1.enq_le, h.1.res_le, ?_, fun i v hv => (h.1.resStable i v hv).2.1⟩
  intro i
  rw [h.1.qcount i]
  split <;> omega

/-- Witness for C5 on a concrete 2-by-1 run. -/
theorem c5_witness :
    (drain c5P 6 (seed c5P c5G)).enqCount 0 ≤ 1 ∧
    (drain c5P 6 (seed c5P c5G)).resCount 0 ≤ 1 ∧
    countCell c5P (drain c5P 6 (seed c5P c5G)).queue 0 ≤ 1 ∧
    (drain c5P 6 (seed c5P c5G)).elev 0 = 2 :=
  ⟨(c5_state_machine c5P c5G 6).1 0, (c5_state_machine c5P c5G 6).2.1 0,
   (c5_state_machine c5P c5G 6).2.2.1 0,
   (c5_state_machine c5P c5G 6).2.2.2 0 2 (by with_unfolding_all decide)⟩

/-- C6: seeding of edge cells.  During the initial scan, every non-no-data
cell on the boundary or with an out-of-bounds or no-data neighbour is
enqueued exactly once, with spill equal to its raw elevation, flow code 255
and queued status; other non-no-data cells stay unvisited with flow code 0
and are not enqueued. -/
theorem c6_seeding (P : Ctx) (elev0 : ℕ → ℚ) (x y : ℕ) (hx : x < P.xSize)
    (hy : y < P.ySize) (hnd : elev0 (cellIdx P x y) ≠ P.nodata) :
    ((onBoundary P x y ∨ edgeTest P elev0 x y = true) →
      (seed P elev0).queued (cellIdx P x y) = true ∧
      (seed P elev0).processed (cellIdx P x y) = false ∧
      (seed P elev0).flowdir (cellIdx P x y) = 255 ∧
      countCell P (seed P elev0).queue (cellIdx P x y) = 1 ∧
      ∀ nd ∈ (seed P elev0).queue, cellIdx P nd.x nd.y = cellIdx P x y →
        nd = ⟨elev0 (cellIdx P x y), x, y⟩) ∧
    (¬(onBoundary P x y ∨ edgeTest P elev0 x y = true) →
      (seed P elev0).queued (cellIdx P x y) = false ∧
      (seed P elev0).processed (cellIdx P x y) = false ∧
      (seed P elev0).flowdir (cellIdx P x y) = 0 ∧
      countCell P (seed P elev0).queue (cellIdx P x y) = 0) := by
  obtain ⟨o1, o2, o3⟩ := seed_outcome P elev0 x y hx hy
  constructor
  · intro hcond
    have het : edgeTest P elev0 x y = true := by
      rcases hcond with hb | he
      · exact onBoundary_edgeTest P elev0 x y hx hy hb
      · exact he
    obtain ⟨q1, q2, q3, _, q5, q6⟩ := o2 hnd het
    exact ⟨q1, q2, q3, q5, q6⟩
  · intro hcond
    have het : edgeTest P elev0 x y = false := by
      cases hval : edgeTest P elev0 (x : ℤ) (y : ℤ)
      · rfl
      · exact absurd (Or.inr hval) hcond
    obtain ⟨q1, q2, q3, _, q5⟩ := o3 hnd het
    exact ⟨q1, q2, q3, q5⟩

/-- Witness for C6: cell (0,0) of a 2-by-1 raster is a boundary seed. -/
theorem c6_witness :
    (seed c6P c6G).queued 0 = true ∧ (seed c6P c6G).flowdir 0 = 255 ∧
    countCell c6P (seed c6P c6G).queue 0 = 1 := by
  have h := (c6_seeding c6P c6G 0 0 (by decide) (by decide)
    (by with_unfolding_all decide)).1 (Or.inl (Or.inl rfl))
  exact ⟨h.1, h.2.2.1, h.2.2.2.1⟩

/-- C7: no-data preservation.  A cell whose raw elevation is the no-data
value is marked resolved during seeding with flow code 255, is never
enqueued over the whole run (ghost enqueue count 0), and its elevation in
the final grid equals its input value. -/
theorem c7_nodata (P : Ctx) (elev0 : ℕ → ℚ) (fuel : ℕ) (x y : ℕ)
    (hx : x < P.xSize) (hy : y < P.ySize)
    (hnd : elev0 (cellIdx P x y) = P.nodata) :
    (seed P elev0).processed (cellIdx P x y) = true ∧
    (seed P elev0).flowdir (cellIdx P x y) = 255 ∧
    (run P elev0 fuel).processed (cellIdx P x y) = true ∧
    (run P elev0 fuel).flowdir (cellIdx P x y) = 255 ∧
    (run P elev0 fuel).elev (cellIdx P x y) = elev0 (cellIdx P x y) ∧
    (run P elev0 fuel).enqCount (cellIdx P x y) = 0 := by
  obtain ⟨p1, p2, _⟩ := (seed_outcome P elev0 x y hx hy).1 hnd
  have hfin := run_inv P elev0 fuel
  have hidx : cellIdx P x y < P.xSize * P.ySize :=
    cellIdx_lt (isInBounds_natCast P hx hy)
  have hproc := hfin.1.ndProcessed _ hidx hnd
  obtain ⟨k1, k2, k3⟩ := hfin.1.ndKeep _ hnd hproc
  exact ⟨p1, p2, hproc, k1, k2, k3⟩

/-- Witness for C7: cell (1,0) of `c7G` is no-data. -/
theorem c7_witness :
    (seed c7P c7G).processed 1 = true ∧
    (run c7P c7G 6).flowdir 1 = 255 ∧
    (run c7P c7G 6).elev 1 = c7G 1 ∧
    (run c7P c7G 6).enqCount 1 = 0 := by
  have h := c7_nodata c7P c7G 6 1 0 (by decide) (by decide)
    (by with_unfolding_all decide)
  exact ⟨h.1, h.2.2.2.1, h.2.2.2.2.1, h.2.2.2.2.2⟩

/-- C8: termination and completion.  With fuel `3 * xSize * ySize` the
draining loop reaches the empty queue on every input; each cell is resolved
at most once and discovered (enqueued) at most once; and at the end every
in-grid non-no-data cell is resolved. -/
theorem c8_termination (P : Ctx) (elev0 : ℕ → ℚ) :
    (run P elev0 (3 * (P.xSize * P.ySize))).queue = [] ∧
    (∀ i, (run P elev0 (3 * (P.xSize * P.ySize))).resCount i ≤ 1) ∧
    (∀ i, (run P elev0 (3 * (P.xSize * P.ySize))).enqCount i ≤ 1) ∧
    ∀ x y : ℕ, x < P.xSize → y < P.ySize → elev0 (cellIdx P x y) ≠ P.nodata →
      (run P elev0 (3 * (P.xSize * P.ySize))).processed (cellIdx P x y) = true := by
  have hempty : (run P elev0 (3 * (P.xSize * P.ySize))).queue = [] :=
    drain_terminates P _ _ (mu_seed_le P elev0)
  have hinv := run_inv P elev0 (3 * (P.xSize * P.ySize))
  exact ⟨hempty, hinv.1.res_le, hinv.1.enq_le, completion P elev0 _ hempty⟩

/-- Witness for C8 on a concrete 2-by-1 run. -/
theorem c8_witness :
    (run c8P c8G (3 * (c8P.xSize * c8P.ySize))).queue = [] ∧
    (run c8P c8G (3 * (c8P.xSize * c8P.ySize))).processed 0 = true ∧
    (run c8P c8G (3 * (c8P.xSize * c8P.ySize))).resCount 1 ≤ 1 :=
  ⟨(c8_termination c8P c8G).1,
   (c8_termination c8P c8G).2.2.2 0 0 (by decide) (by decide)
     (by with_unfolding_all decide),
   (c8_termination c8P c8G).2.1 1⟩

/-- C9 counterexample: a negative minimum slope is not rejected.  The
preserve-flag setup (lines 191-201, the only code that looks at the value)
is a total function that simply yields `preserve = false` for `-1`, and the
traversal then runs to completion and resolves every cell, producing
output exactly as for a zero minimum slope. -/
theorem c9_counterexample :
    configurePreserve (-1) = false ∧ c9P.preserve = configurePreserve (-1) ∧
    (run c9P c9G 6).queue = [] ∧ (run c9P c9G 6).processed 0 = true ∧
    (run c9P c9G 6).processed 1 = true := by
  refine ⟨?_, ?_, ?_, ?_, ?_⟩ <;> with_unfolding_all decide

/-- C9 amended: a negative minimum-slope value is not a fatal configuration
error; it is accepted and treated exactly like zero, disabling slope
preservation, and the program proceeds with the plain-mode traversal. -/
theorem c9_negative_minslope (m : ℚ) (hm : m < 0) :
    configurePreserve m = false ∧ configurePreserve m = configurePreserve 0 := by
  have h1 : configurePreserve m = false := by
    unfold configurePreserve
    exact decide_eq_false_iff_not.mpr (not_lt.mpr (le_of_lt hm))
  have h2 : configurePreserve 0 = false := by
    unfold configurePreserve
    exact decide_eq_false_iff_not.mpr (lt_irrefl 0)
  exact ⟨h1, h1.trans h2.symm⟩

/-- Witness for the amended C9. -/
theorem c9_witness :
    configurePreserve (-1) = false ∧ configurePreserve (-1) = configurePreserve 0 :=
  c9_negative_minslope (-1) (by norm_num)

/-- C10: with no minimum-slope option the value defaults to 0.1, which
enables slope preservation; the preserve flag is true exactly for positive
configured values, so plain mode runs only when the user supplies zero or a
negative minimum slope. -/
theorem c10_default_minslope :
    minslopeDefault = 1 / 10 ∧ configurePreserve minslopeDefault = true ∧
    ∀ m : ℚ, configurePreserve m = true ↔ 0 < m := by
  refine ⟨rfl, ?_, ?_⟩
  · unfold configurePreserve minslopeDefault
    rw [decide_eq_true_eq]
    norm_num
  · intro m
    unfold configurePreserve
    rw [decide_eq_true_eq]

end SpillDEM
